import Mathlib

/-!
A verification development for the code-chunking and vector-indexing pipeline
of the ainulindale repository (`src/frontend/src-tauri/src/indexer/`).

The Rust sources are shallowly embedded as executable Lean definitions:
pure functions become Lean functions, the SQLite-backed vector store becomes
explicit state passing over a functional table state, and the random UUID
generator and the external tree-sitter / fastembed capabilities become
explicit parameters.  Line numbers are `u32` in the source; they are modelled
as `Nat` (files of at least 2^32 lines, where the cast would wrap, are outside
the scope of every claim considered here).
-/

/-! ## Data model (`indexer/mod.rs`) -/

/-- `IndexerConfig` from `indexer/mod.rs`. -/
structure IndexerConfig where
  max_chunk_lines : Nat
  min_chunk_lines : Nat
  overlap_lines : Nat
  extensions : List String
  ignore_dirs : List String
deriving DecidableEq

/-- `IndexerConfig::default()` from `indexer/mod.rs` (the `extensions` and
`ignore_dirs` lists are irrelevant to chunking and abbreviated). -/
def IndexerConfig.default : IndexerConfig :=
  { max_chunk_lines := 50
    min_chunk_lines := 5
    overlap_lines := 10
    extensions := ["rs", "ts", "tsx", "js", "jsx", "py", "go"]
    ignore_dirs := ["node_modules", ".git", "target"] }

/-- `CodeChunk` from `indexer/mod.rs`. -/
structure CodeChunk where
  id : String
  filesystem_hex_id : String
  file_path : String
  start_line : Nat
  end_line : Nat
  content : String
  language : Option String
deriving DecidableEq

/-- `SearchResult` from `indexer/mod.rs`; the `f32` distance is modelled as a
rational number. -/
structure SearchResult where
  chunk : CodeChunk
  distance : ℚ
deriving DecidableEq

/-! ## String helpers

Rust's `str::lines` splits at `\n`, strips a trailing `\r` from each
terminated line, and yields no final empty line when the string ends with a
newline.  The splitting is implemented over the character list so that it is
kernel-computable. -/

/-- Split a character list at every newline character (the pieces keep no
terminator); an empty input yields one empty piece, like `str::split`. -/
def splitNl : List Char → List (List Char)
  | [] => [[]]
  | c :: cs =>
    let rest := splitNl cs
    if c = '\n' then [] :: rest
    else
      match rest with
      | [] => [[c]]
      | p :: ps => (c :: p) :: ps

/-- Drop one trailing carriage return, as Rust's `lines` does for `\r\n`. -/
def stripCr (l : List Char) : List Char :=
  match l.getLast? with
  | some '\r' => l.dropLast
  | _ => l

/-- Rust `str::lines` over a character list. -/
def rustLinesL (cs : List Char) : List (List Char) :=
  let ps := splitNl cs
  let front := ps.dropLast.map stripCr
  match ps.getLast? with
  | some [] => front
  | some last => front ++ [last]
  | none => front

/-- Rust `content.lines().collect::<Vec<_>>()`. -/
def rustLines (s : String) : List String :=
  (rustLinesL s.data).map (fun l => String.mk l)

/-- Lowercasing, `str::to_lowercase` (ASCII suffices for file extensions). -/
def lowerStr (s : String) : String :=
  String.mk (s.data.map Char.toLower)

/-- `Path::extension` restricted to what the chunker needs: the part of the
last `/`-separated component after its last dot, none when there is no dot or
when the component starts with its only dot (hidden files). -/
def fileExtension (p : String) : Option String :=
  let name := (p.data.reverse.takeWhile (fun c => ¬ c = '/')).reverse
  let revName := name.reverse
  if revName.contains '.' then
    let revExt := revName.takeWhile (fun c => ¬ c = '.')
    let stem := revName.drop (revExt.length + 1)
    if stem = [] then none else some (String.mk revExt.reverse)
  else none

/-! ## Syntax unit extractor (`indexer/tree_sitter_parser.rs`) -/

/-- `SupportedLanguage` from `tree_sitter_parser.rs`. -/
inductive SupportedLanguage where
  | rust
  | typeScript
  | tsx
  | javaScript
  | python
  | go
deriving DecidableEq

/-- `SupportedLanguage::top_level_kinds`. -/
def SupportedLanguage.top_level_kinds : SupportedLanguage → List String
  | .rust =>
    ["function_item", "impl_item", "struct_item", "enum_item", "trait_item",
     "mod_item", "const_item", "static_item", "type_item", "macro_definition"]
  | .typeScript | .tsx =>
    ["function_declaration", "class_declaration", "interface_declaration",
     "type_alias_declaration", "enum_declaration", "export_statement",
     "lexical_declaration", "variable_declaration"]
  | .javaScript =>
    ["function_declaration", "class_declaration", "export_statement",
     "lexical_declaration", "variable_declaration"]
  | .python =>
    ["function_definition", "class_definition", "decorated_definition"]
  | .go =>
    ["function_declaration", "method_declaration", "type_declaration",
     "const_declaration", "var_declaration"]

/-- `SupportedLanguage::from_extension`. -/
def SupportedLanguage.from_extension (ext : String) : Option SupportedLanguage :=
  match lowerStr ext with
  | "rs" => some .rust
  | "ts" => some .typeScript
  | "tsx" => some .tsx
  | "js" | "mjs" | "cjs" => some .javaScript
  | "jsx" => some .javaScript
  | "py" => some .python
  | "go" => some .go
  | _ => none

/-- `SupportedLanguage::name`. -/
def SupportedLanguage.name : SupportedLanguage → String
  | .rust => "rust"
  | .typeScript => "typescript"
  | .tsx => "tsx"
  | .javaScript => "javascript"
  | .python => "python"
  | .go => "go"

/-- `SemanticUnit` from `tree_sitter_parser.rs`. -/
structure SemanticUnit where
  kind : String
  start_byte : Nat
  end_byte : Nat
  start_line : Nat
  end_line : Nat
  content : String
  name : Option String
deriving DecidableEq

/-- A tree-sitter syntax-tree node, as the extractor consumes it: kind,
byte range, 0-indexed line range, the source text of its byte range, the
grammar's named fields (field name to field text), and the children in
document order.  Trees are produced by the external tree-sitter grammars,
which are not part of the repository; concrete trees used below are modelled
from the spec's description of the parses. -/
inductive TSNode where
  | mk (kind : String) (startByte endByte startLine endLine : Nat)
       (text : String) (fields : List (String × String)) (children : List TSNode)

def TSNode.kind : TSNode → String
  | .mk k _ _ _ _ _ _ _ => k

def TSNode.startByte : TSNode → Nat
  | .mk _ sb _ _ _ _ _ _ => sb

def TSNode.endByte : TSNode → Nat
  | .mk _ _ eb _ _ _ _ _ => eb

def TSNode.startLine : TSNode → Nat
  | .mk _ _ _ sl _ _ _ _ => sl

def TSNode.endLine : TSNode → Nat
  | .mk _ _ _ _ el _ _ _ => el

def TSNode.text : TSNode → String
  | .mk _ _ _ _ _ tx _ _ => tx

def TSNode.fields : TSNode → List (String × String)
  | .mk _ _ _ _ _ _ f _ => f

def TSNode.children : TSNode → List TSNode
  | .mk _ _ _ _ _ _ _ cs => cs

/-- `node.child_by_field_name(k)`, restricted to the field's text. -/
def lookupField (fs : List (String × String)) (k : String) : Option String :=
  (fs.find? (fun p => p.1 = k)).map (fun p => p.2)

/-- The fallback loop of `extract_name`: the first child whose kind is
literally `identifier` or `name`. -/
def firstNameChild : List TSNode → Option String
  | [] => none
  | c :: cs =>
    if c.kind = "identifier" ∨ c.kind = "name" then some c.text
    else firstNameChild cs

/-- `extract_name` from `tree_sitter_parser.rs`. -/
def extract_name (n : TSNode) : Option String :=
  match lookupField n.fields "name" with
  | some s => some s
  | none =>
    match lookupField n.fields "identifier" with
    | some s => some s
    | none => firstNameChild n.children

/-- The `SemanticUnit` built for a matched node in `collect_semantic_units`
(the node's text stands for `source[node.byte_range()]`). -/
def mkUnit (n : TSNode) : SemanticUnit :=
  { kind := n.kind
    start_byte := n.startByte
    end_byte := n.endByte
    start_line := n.startLine
    end_line := n.endLine
    content := n.text
    name := extract_name n }

mutual

/-- `collect_semantic_units` from `tree_sitter_parser.rs`: emit one unit for a
matched node without recursing into it, otherwise recurse into the children. -/
def collect_semantic_units (kinds : List String) : TSNode → List SemanticUnit
  | n@(.mk k _ _ _ _ _ _ cs) =>
    if k ∈ kinds then [mkUnit n] else collectChildren kinds cs

/-- The sequential accumulation of `collect_semantic_units` over a child
list (the Rust `for child in node.children` loop over the shared `units`
vector). -/
def collectChildren (kinds : List String) : List TSNode → List SemanticUnit
  | [] => []
  | c :: cs => collect_semantic_units kinds c ++ collectChildren kinds cs

end

/-- `extract_semantic_units` from `tree_sitter_parser.rs`: walk the root's
children with the language's top-level kind list. -/
def extract_semantic_units (lang : SupportedLanguage) (root : TSNode) : List SemanticUnit :=
  collectChildren lang.top_level_kinds root.children

/-! ## Chunk segmentation engine (`indexer/chunker.rs`) -/

/-- `detect_supported_language` from `chunker.rs`. -/
def detect_supported_language (file_path : String) : Option SupportedLanguage :=
  (fileExtension file_path).bind SupportedLanguage.from_extension

/-- The extension-to-name match inside `detect_language`. -/
def detect_language_name (ext : String) : String :=
  match ext with
  | "rs" => "rust"
  | "ts" | "tsx" => "typescript"
  | "js" | "jsx" => "javascript"
  | "py" => "python"
  | "go" => "go"
  | "java" => "java"
  | "c" | "h" => "c"
  | "cpp" | "hpp" | "cc" | "cxx" => "cpp"
  | "cs" => "csharp"
  | "rb" => "ruby"
  | "php" => "php"
  | "swift" => "swift"
  | "kt" => "kotlin"
  | "scala" => "scala"
  | "sql" => "sql"
  | "sh" | "bash" | "zsh" => "shell"
  | "yaml" | "yml" => "yaml"
  | "json" => "json"
  | "toml" => "toml"
  | "xml" => "xml"
  | "html" => "html"
  | "css" | "scss" => "css"
  | "md" => "markdown"
  | e => e

/-- `detect_language` from `chunker.rs`. -/
def detect_language (file_path : String) : Option String :=
  (fileExtension file_path).map (fun e => detect_language_name (lowerStr e))

/-- The shared sliding-window `while` loop of `chunk_file_line_based` and the
large-unit branch of `chunk_file_tree_sitter`: windows are `(start, end)`
pairs of 0-indexed line offsets, `end` exclusive.  `ne` is the Rust
`!chunks.is_empty()` at loop entry. -/
def windowLoop (N maxL minL ov : Nat) (start : Nat) (ne : Bool) : List (Nat × Nat) :=
  if start < N then
    let e := min (start + maxL) N
    if e - start < minL ∧ ne = true then []
    else
      (start, e) ::
        (if N ≤ e then [] else windowLoop N maxL minL ov (start + max 1 (maxL - ov)) true)
  else []
termination_by N - start
decreasing_by
  simp at *
  omega

/-- `Uuid::new_v4()` draws: the emitted chunks receive their identifiers from
an explicit supply `ids`, indexed by draw order, which models the RNG. -/
def assignIds (ids : Nat → String) (l : List CodeChunk) : List CodeChunk :=
  l.enum.map (fun p => { p.2 with id := ids p.1 })

/-- Forget a chunk's identifier (for statements about determinism modulo the
random UUIDs). -/
def eraseId (c : CodeChunk) : CodeChunk :=
  { c with id := "" }

/-- The line range of a chunk. -/
def lineRange (c : CodeChunk) : Nat × Nat :=
  (c.start_line, c.end_line)

/-- `chunk_file_line_based` from `chunker.rs`. -/
def chunk_file_line_based (ids : Nat → String) (filesystem_hex_id file_path content : String)
    (config : IndexerConfig) : List CodeChunk :=
  let lines := rustLines content
  let total_lines := lines.length
  if total_lines = 0 then []
  else
    let language := detect_language file_path
    if total_lines ≤ config.max_chunk_lines then
      assignIds ids
        [{ id := ""
           filesystem_hex_id := filesystem_hex_id
           file_path := file_path
           start_line := 1
           end_line := total_lines
           content := content
           language := language }]
    else
      assignIds ids
        ((windowLoop total_lines config.max_chunk_lines config.min_chunk_lines
            config.overlap_lines 0 false).map
          (fun w =>
            { id := ""
              filesystem_hex_id := filesystem_hex_id
              file_path := file_path
              start_line := w.1 + 1
              end_line := w.2
              content := String.intercalate "\n" ((lines.drop w.1).take (w.2 - w.1))
              language := language }))

/-- The per-unit body of the `for unit in units` loop in
`chunk_file_tree_sitter`, accumulating into the shared chunk vector `acc`
(identifiers are assigned afterwards). -/
def tsUnitChunks (config : IndexerConfig) (filesystem_hex_id file_path : String)
    (language : Option String) (acc : List CodeChunk) (u : SemanticUnit) : List CodeChunk :=
  let line_count := u.end_line - u.start_line + 1
  if line_count ≤ config.max_chunk_lines then
    acc ++
      [{ id := ""
         filesystem_hex_id := filesystem_hex_id
         file_path := file_path
         start_line := u.start_line + 1
         end_line := u.end_line + 1
         content := u.content
         language := language }]
  else
    let unit_lines := rustLines u.content
    acc ++
      ((windowLoop unit_lines.length config.max_chunk_lines config.min_chunk_lines
          config.overlap_lines 0 (¬ acc.isEmpty = true)).map
        (fun w =>
          { id := ""
            filesystem_hex_id := filesystem_hex_id
            file_path := file_path
            start_line := u.start_line + w.1 + 1
            end_line := u.start_line + w.2
            content := String.intercalate "\n" ((unit_lines.drop w.1).take (w.2 - w.1))
            language := language }))

/-- `chunk_file_tree_sitter` from `chunker.rs`; `pt` stands for the external
tree-sitter parser (`parse_source` builds a tree or fails). -/
def chunk_file_tree_sitter (pt : SupportedLanguage → String → Option TSNode)
    (ids : Nat → String) (filesystem_hex_id file_path content : String)
    (language : SupportedLanguage) (config : IndexerConfig) : Option (List CodeChunk) :=
  match pt language content with
  | none => none
  | some root =>
    if extract_semantic_units language root = [] then none
    else
      some (assignIds ids
        ((extract_semantic_units language root).foldl
          (tsUnitChunks config filesystem_hex_id file_path (some language.name)) []))

/-- `chunk_file` from `chunker.rs`. -/
def chunk_file (pt : SupportedLanguage → String → Option TSNode) (ids : Nat → String)
    (filesystem_hex_id file_path content : String) (config : IndexerConfig) : List CodeChunk :=
  if content = "" then []
  else
    match detect_supported_language file_path with
    | some lang =>
      match chunk_file_tree_sitter pt ids filesystem_hex_id file_path content lang config with
      | some cs =>
        if cs = [] then chunk_file_line_based ids filesystem_hex_id file_path content config
        else cs
      | none => chunk_file_line_based ids filesystem_hex_id file_path content config
    | none => chunk_file_line_based ids filesystem_hex_id file_path content config

example : rustLines "a\nb\nc" = ["a", "b", "c"] := by decide

example : rustLines "a\n" = ["a"] := by decide

example : rustLines "" = [] := by decide

example : detect_supported_language "test.py" = some .python := by decide

example : detect_supported_language "test.txt" = none := by decide

example : detect_language "foo.rs" = some "rust" := by decide

example : windowLoop 6 3 3 1 0 false = [(0, 3), (2, 5)] := by
  simp [windowLoop]

example : windowLoop 120 50 5 10 0 false = [(0, 50), (40, 90), (80, 120)] := by
  simp [windowLoop]

/-! ## Vector store (`indexer/store.rs`)

The two SQLite tables (`code_chunks` keyed by `id`, `chunk_embeddings` keyed
by `chunk_id`) are modelled as row lists; each SQL statement of the source
becomes a list operation, and the `ORDER BY e.distance` of `search` becomes a
sort by distance.  The vector distance computed by the external `sqlite-vec`
extension is an explicit parameter `dist`. -/

/-- `StoreError` from `store.rs`. -/
inductive StoreError where
  | database (msg : String)
  | serialization (msg : String)
  | notInitialized
deriving DecidableEq

/-- The two tables of an initialized `VectorStore`. -/
structure StoreState where
  chunks : List CodeChunk
  embeddings : List (String × List ℚ)
deriving DecidableEq

/-- `INSERT OR REPLACE INTO code_chunks`: the row with the same primary key
is fully replaced. -/
def upsertChunk (c : CodeChunk) (st : StoreState) : StoreState :=
  { st with chunks := st.chunks.filter (fun r => ¬ r.id = c.id) ++ [c] }

/-- `INSERT OR REPLACE INTO chunk_embeddings`. -/
def upsertEmbedding (cid : String) (v : List ℚ) (st : StoreState) : StoreState :=
  { st with embeddings := st.embeddings.filter (fun r => ¬ r.1 = cid) ++ [(cid, v)] }

/-- One fallible step of `VectorStore::insert`, in source order: the chunk
metadata upsert, the serde serialization of the embedding, the embedding
upsert. -/
inductive InsertStep where
  | metadataUpsert
  | serializeEmbedding
  | embeddingUpsert
deriving DecidableEq

/-- `VectorStore::insert` from `store.rs`: the two upserts run in sequence
with the serialization between them and no enclosing transaction.  `failAt`
injects the environment's failure (an SQLite or serde error) at one of the
three steps; `none` is the successful run.  The returned pair is the Rust
return value together with the database state the call leaves behind. -/
def VectorStore_insert (failAt : Option InsertStep) (c : CodeChunk) (v : List ℚ)
    (st : StoreState) : Except StoreError Unit × StoreState :=
  match failAt with
  | some .metadataUpsert => (.error (.database "insert chunk failed"), st)
  | some .serializeEmbedding =>
    (.error (.serialization "embedding serialization failed"), upsertChunk c st)
  | some .embeddingUpsert =>
    (.error (.database "insert embedding failed"), upsertChunk c st)
  | none => (.ok (), upsertEmbedding c.id v (upsertChunk c st))

/-- The `WHERE filesystem_hex_id = ?1 AND file_path = ?2` predicate. -/
def fileMatches (filesystem_hex_id file_path : String) (c : CodeChunk) : Bool :=
  c.filesystem_hex_id = filesystem_hex_id ∧ c.file_path = file_path

/-- `VectorStore::remove_file` from `store.rs`: collect the file's chunk ids,
delete their embedding rows, delete the chunk rows, and return the deleted
chunk-row count. -/
def remove_file (filesystem_hex_id file_path : String) (st : StoreState) :
    Nat × StoreState :=
  let chunk_ids := (st.chunks.filter (fileMatches filesystem_hex_id file_path)).map
    (fun c => c.id)
  let remaining := st.chunks.filter (fun c => ¬ fileMatches filesystem_hex_id file_path c)
  ((st.chunks.filter (fileMatches filesystem_hex_id file_path)).length,
    { chunks := remaining
      embeddings := st.embeddings.filter (fun r => ¬ r.1 ∈ chunk_ids) })

/-- `VectorStore::clear_filesystem` from `store.rs`. -/
def clear_filesystem (filesystem_hex_id : String) (st : StoreState) : Nat × StoreState :=
  let fsMatch : CodeChunk → Bool := fun c => c.filesystem_hex_id = filesystem_hex_id
  let chunk_ids := (st.chunks.filter fsMatch).map (fun c => c.id)
  ((st.chunks.filter fsMatch).length,
    { chunks := st.chunks.filter (fun c => ¬ fsMatch c)
      embeddings := st.embeddings.filter (fun r => ¬ r.1 ∈ chunk_ids) })

/-- `VectorStore::get_chunk_count` from `store.rs`. -/
def get_chunk_count (st : StoreState) (filesystem_hex_id : String) : Nat :=
  (st.chunks.filter (fun c => c.filesystem_hex_id = filesystem_hex_id)).length

/-- `VectorStore::get_indexed_files` from `store.rs` (`SELECT DISTINCT`). -/
def get_indexed_files (st : StoreState) (filesystem_hex_id : String) : List String :=
  ((st.chunks.filter (fun c => c.filesystem_hex_id = filesystem_hex_id)).map
    (fun c => c.file_path)).dedup

/-- Ordering of search results by distance (the `ORDER BY e.distance`). -/
def distLE (a b : SearchResult) : Prop :=
  a.distance ≤ b.distance

instance : DecidableRel distLE :=
  fun a b => inferInstanceAs (Decidable (a.distance ≤ b.distance))

instance : IsTotal SearchResult distLE :=
  ⟨fun a b => le_total a.distance b.distance⟩

instance : IsTrans SearchResult distLE :=
  ⟨fun _ _ _ h1 h2 => le_trans h1 h2⟩

/-- Ordering of embedding rows by distance (the `MATCH ?1 AND k = ?2`
K-nearest-neighbor constraint of the `vec0` virtual table). -/
def rowDistLE (a b : String × ℚ) : Prop :=
  a.2 ≤ b.2

instance : DecidableRel rowDistLE :=
  fun a b => inferInstanceAs (Decidable (a.2 ≤ b.2))

instance : IsTotal (String × ℚ) rowDistLE :=
  ⟨fun a b => le_total a.2 b.2⟩

instance : IsTrans (String × ℚ) rowDistLE :=
  ⟨fun _ _ _ h1 h2 => le_trans h1 h2⟩

/-- `VectorStore::search` from `store.rs`: the `vec0` KNN constraint yields
the `limit` embedding rows nearest to the query, they are inner-joined with
`code_chunks` on the chunk id, the filesystem filter (`1=1` when the id list
is empty) restricts the rows, and the result is ordered by ascending
distance. -/
def VectorStore_search (dist : List ℚ → List ℚ → ℚ) (st : StoreState)
    (query_embedding : List ℚ) (filesystem_hex_ids : List String) (limit : Nat) :
    List SearchResult :=
  let scored := st.embeddings.map (fun r => (r.1, dist query_embedding r.2))
  let knn := (List.insertionSort rowDistLE scored).take limit
  let joined := knn.flatMap (fun kr =>
    (st.chunks.filter (fun c => c.id = kr.1)).map (fun c => SearchResult.mk c kr.2))
  let filtered :=
    if filesystem_hex_ids.isEmpty then joined
    else joined.filter (fun r => filesystem_hex_ids.contains r.chunk.filesystem_hex_id)
  List.insertionSort distLE filtered

/-- The same pipeline with the `1=1` filesystem filter: every collection is
eligible.  Stated separately to compare with `VectorStore_search` on an empty
id list. -/
def searchAllCollections (dist : List ℚ → List ℚ → ℚ) (st : StoreState)
    (query_embedding : List ℚ) (limit : Nat) : List SearchResult :=
  let scored := st.embeddings.map (fun r => (r.1, dist query_embedding r.2))
  let knn := (List.insertionSort rowDistLE scored).take limit
  let joined := knn.flatMap (fun kr =>
    (st.chunks.filter (fun c => c.id = kr.1)).map (fun c => SearchResult.mk c kr.2))
  List.insertionSort distLE joined

/-- `remove_file` followed by inserting each chunk of a new set with its
embedding (the caller-side replace sequence; every insert succeeds). -/
def insertAll (pairs : List (CodeChunk × List ℚ)) (st : StoreState) : StoreState :=
  pairs.foldl (fun s p => (VectorStore_insert none p.1 p.2 s).2) st

/-- The chunk/vector pairing invariant: chunk ids are unique, embedding keys
are unique, and every chunk row has exactly one paired vector row and vice
versa. -/
def pairedInv (st : StoreState) : Prop :=
  (st.chunks.map (fun c => c.id)).Nodup ∧
  (st.embeddings.map (fun r => r.1)).Nodup ∧
  (∀ c ∈ st.chunks, c.id ∈ st.embeddings.map (fun r => r.1)) ∧
  (∀ r ∈ st.embeddings, r.1 ∈ st.chunks.map (fun c => c.id))

instance (st : StoreState) : Decidable (pairedInv st) := by
  unfold pairedInv
  infer_instance

/-! ## Embedding provider adapter (`indexer/embedder.rs`)

The fastembed model handle is modelled as `Option (String → List ℚ)`:
`none` is the uninitialized state, and an initialized handle is a function
from a text to its vector.  Modelled from the spec: the external provider
maps a batch of strings elementwise (output length equals input length,
embedding `i` corresponds to text `i`, values do not depend on the rest of
the batch); the model download and ONNX runtime are outside the repository. -/

/-- `EmbedderError` from `embedder.rs`. -/
inductive EmbedderError where
  | initError (msg : String)
  | embedError (msg : String)
  | notInitialized
deriving DecidableEq

/-- `Embedder::embed` from `embedder.rs`: fails with `NotInitialized` before
the model is loaded, otherwise applies the provider to the batch. -/
def Embedder_embed (model : Option (String → List ℚ)) (texts : List String) :
    Except EmbedderError (List (List ℚ)) :=
  match model with
  | none => .error .notInitialized
  | some f => .ok (texts.map f)

/-- Rust `slice::chunks` for a positive chunk size: split into consecutive
batches of `bs` elements, the last possibly smaller. -/
def chunksPos (bs : Nat) (hbs : 0 < bs) : List α → List (List α)
  | [] => []
  | x :: xs => ((x :: xs).take bs) :: chunksPos bs hbs ((x :: xs).drop bs)
termination_by l => l.length
decreasing_by
  simp
  omega

/-- The `for (batch_idx, batch)` loop of `embed_with_progress`: embeds each
batch, concatenates the embeddings, and records each `on_progress` invocation
as a `(processed, total)` pair, in call order. -/
def ewpLoop (model : Option (String → List ℚ)) (total bs : Nat) (idx : Nat) :
    List (List String) → Except EmbedderError (List (List ℚ) × List (Nat × Nat))
  | [] => .ok ([], [])
  | b :: rest =>
    match Embedder_embed model b with
    | .error e => .error e
    | .ok es =>
      match ewpLoop model total bs (idx + 1) rest with
      | .error e => .error e
      | .ok (more, tr) => .ok (es ++ more, (min ((idx + 1) * bs) total, total) :: tr)

/-- `Embedder::embed_with_progress` from `embedder.rs`: `texts.chunks(batch_size)`
panics when `batch_size` is zero (modelled as `none`, per `slice::chunks`'
documented panic); otherwise the batches are embedded in order with a
progress callback after each. -/
def embed_with_progress (model : Option (String → List ℚ)) (texts : List String)
    (batch_size : Nat) : Option (Except EmbedderError (List (List ℚ) × List (Nat × Nat))) :=
  if h : 0 < batch_size then
    some (ewpLoop model texts.length batch_size 0 (chunksPos batch_size h texts))
  else none

example :
    embed_with_progress (some (fun s => [(s.length : ℚ)])) ["a", "bb", "c"] 2 =
      some (.ok ([[1], [2], [1]], [(2, 3), (3, 3)])) := by
  simp [embed_with_progress, chunksPos, ewpLoop, Embedder_embed]
  decide

/-! ## Window-loop lemmas -/

/-- Every window's end is determined by its start, and starts lie in `[start, N)`. -/
theorem windowLoop_mem_shape (N maxL minL ov : Nat) :
    ∀ (start : Nat) (ne : Bool), ∀ w ∈ windowLoop N maxL minL ov start ne,
      start ≤ w.1 ∧ w.1 < N ∧ w.2 = min (w.1 + maxL) N := by
  intro start ne
  induction start, ne using windowLoop.induct N maxL minL ov with
  | case1 s ne hs e hcond =>
    rw [windowLoop, if_pos hs, if_pos hcond]
    intro w hw
    simp at hw
  | case2 s ne hs e hcond ih =>
    rw [windowLoop, if_pos hs, if_neg hcond]
    intro w hw
    rcases List.mem_cons.mp hw with h | h
    · subst h
      exact ⟨le_refl _, hs, rfl⟩
    · rcases (by split at h <;> simp_all : w ∈ windowLoop N maxL minL ov (s + max 1 (maxL - ov)) true) with h'
      rcases ih w h' with ⟨h1, h2, h3⟩
      exact ⟨le_trans (by omega) h1, h2, h3⟩
  | case3 s ne hs =>
    rw [windowLoop, if_neg hs]
    intro w hw
    simp at hw

/-- The loop output is empty or starts with the window at `start`. -/
theorem windowLoop_head (N maxL minL ov start : Nat) (ne : Bool) :
    windowLoop N maxL minL ov start ne = [] ∨
      ∃ t, windowLoop N maxL minL ov start ne = (start, min (start + maxL) N) :: t := by
  rw [windowLoop]
  split
  · simp only []
    split
    · exact Or.inl rfl
    · exact Or.inr ⟨_, rfl⟩
  · exact Or.inl rfl

/-- Consecutive windows: the earlier ends exactly `maxL` past its start and
the later starts exactly one step further (`ov < maxL`). -/
theorem windowLoop_chain (N maxL minL ov : Nat) (hov : ov < maxL) :
    ∀ (start : Nat) (ne : Bool),
      List.Chain' (fun a b : Nat × Nat => b.1 = a.1 + (maxL - ov) ∧ a.2 = a.1 + maxL)
        (windowLoop N maxL minL ov start ne) := by
  intro start ne
  induction start, ne using windowLoop.induct N maxL minL ov with
  | case1 s ne hs e hcond =>
    rw [windowLoop, if_pos hs, if_pos hcond]
    exact List.chain'_nil
  | case2 s ne hs e hcond ih =>
    rw [windowLoop, if_pos hs, if_neg hcond]
    split
    · exact List.chain'_singleton _
    · rename_i hNe
      have hstep : max 1 (maxL - ov) = maxL - ov := by omega
      refine List.chain'_cons'.mpr ⟨?_, by simpa [hstep] using ih⟩
      intro b hb
      rcases windowLoop_head N maxL minL ov (s + max 1 (maxL - ov)) true with h0 | ⟨t, h0⟩
      · rw [h0] at hb; simp at hb
      · rw [h0] at hb
        simp at hb
        subst hb
        constructor
        · simp [hstep]
        · simp only []
          omega
  | case3 s ne hs =>
    rw [windowLoop, if_neg hs]
    exact List.chain'_nil

/-- Coverage: with `ov < maxL` and `minL ≤ ov + 1`, the windows emitted from
`start` cover every line offset in `[start, N)`. -/
theorem windowLoop_cov (N maxL minL ov : Nat) (hov : ov < maxL) (hmin : minL ≤ ov + 1) :
    ∀ (start : Nat) (ne : Bool), start < N → (ne = false ∨ minL ≤ N - start) →
      ∀ x, start ≤ x → x < N →
        ∃ w ∈ windowLoop N maxL minL ov start ne, w.1 ≤ x ∧ x < w.2 := by
  intro start ne
  induction start, ne using windowLoop.induct N maxL minL ov with
  | case1 s ne hs e hcond =>
    intro _ hok x hx1 hx2
    exfalso
    rcases hcond with ⟨hshort, hne⟩
    rcases hok with h | h
    · rw [h] at hne; exact Bool.false_ne_true hne
    · simp only [e] at hshort
      omega
  | case2 s ne hs e hcond ih =>
    intro _ hok x hx1 hx2
    rw [windowLoop, if_pos hs, if_neg hcond]
    split
    · rename_i hend
      refine ⟨(s, min (s + maxL) N), List.mem_singleton.mpr rfl, hx1, ?_⟩
      simp only []
      omega
    · rename_i hend
      by_cases hxin : x < s + maxL
      · exact ⟨(s, min (s + maxL) N), List.mem_cons_self _ _, hx1, by simp only []; omega⟩
      · have hstep : max 1 (maxL - ov) = maxL - ov := by omega
        have hs' : s + max 1 (maxL - ov) < N := by omega
        have hok' : (true = false) ∨ minL ≤ N - (s + max 1 (maxL - ov)) := by
          right
          omega
        rcases ih hs' hok' x (by omega) hx2 with ⟨w, hw, hwx⟩
        exact ⟨w, List.mem_cons_of_mem _ hw, hwx⟩
  | case3 s ne hs =>
    intro h
    omega

/-- A window shorter than `minL` can only be emitted as the sole window of a
loop entered with an empty chunk vector. -/
theorem windowLoop_short (N maxL minL ov : Nat) :
    ∀ (start : Nat) (ne : Bool), ∀ w ∈ windowLoop N maxL minL ov start ne,
      w.2 - w.1 < minL → ne = false ∧ windowLoop N maxL minL ov start ne = [w] := by
  intro start ne
  induction start, ne using windowLoop.induct N maxL minL ov with
  | case1 s ne hs e hcond =>
    rw [windowLoop, if_pos hs, if_pos hcond]
    intro w hw
    simp at hw
  | case2 s ne hs e hcond ih =>
    rw [windowLoop, if_pos hs, if_neg hcond]
    intro w hw hshort
    rcases List.mem_cons.mp hw with h | h
    · subst h
      simp only [] at hshort
      have hne : ne = false := by
        by_contra hne'
        have : ne = true := by
          cases ne
          · exact absurd rfl hne'
          · rfl
        exact hcond ⟨by simp only [e]; omega, this⟩
      refine ⟨hne, ?_⟩
      split
      · rfl
      · rename_i hend
        -- the continuation is entered only when e < N, so e = s + maxL and
        -- the head being short forces maxL < minL; then the next candidate
        -- is also short with ne = true, so the continuation is empty.
        have he : min (s + maxL) N = s + maxL := by omega
        have hmaxmin : maxL < minL := by omega
        have hcont : windowLoop N maxL minL ov (s + max 1 (maxL - ov)) true = [] := by
          by_cases hlt : s + max 1 (maxL - ov) < N
          · rw [windowLoop, if_pos hlt]
            simp only []
            have hc : min (s + max 1 (maxL - ov) + maxL) N - (s + max 1 (maxL - ov)) < minL ∧
                True := ⟨by omega, trivial⟩
            rw [if_pos hc]
          · rw [windowLoop, if_neg hlt]
        rw [hcont]
    · rcases (by split at h <;> simp_all :
          w ∈ windowLoop N maxL minL ov (s + max 1 (maxL - ov)) true) with h'
      rcases ih w h' hshort with ⟨hfalse, _⟩
      exact absurd hfalse (by decide)
  | case3 s ne hs =>
    rw [windowLoop, if_neg hs]
    intro w hw
    simp at hw

/-! ## Identifier-assignment lemmas -/

theorem assignIds_length (ids : Nat → String) (l : List CodeChunk) :
    (assignIds ids l).length = l.length := by
  simp [assignIds]

theorem assignIds_map_lineRange (ids : Nat → String) (l : List CodeChunk) :
    (assignIds ids l).map lineRange = l.map lineRange := by
  unfold assignIds
  rw [List.map_map]
  have h1 : (lineRange ∘ fun p : Nat × CodeChunk => { p.2 with id := ids p.1 }) =
      (fun p : Nat × CodeChunk => lineRange p.2) := by
    funext p
    rfl
  rw [h1]
  have h2 : (fun p : Nat × CodeChunk => lineRange p.2) =
      (lineRange ∘ Prod.snd) := rfl
  rw [h2, ← List.map_map, List.enum_map_snd]

theorem assignIds_map_eraseId (ids : Nat → String) (l : List CodeChunk) :
    (assignIds ids l).map eraseId = l.map eraseId := by
  unfold assignIds
  rw [List.map_map]
  have h1 : (eraseId ∘ fun p : Nat × CodeChunk => { p.2 with id := ids p.1 }) =
      (eraseId ∘ Prod.snd) := by
    funext p
    rfl
  rw [h1, ← List.map_map, List.enum_map_snd]

/-- For a file longer than `max_chunk_lines`, `chunk_file_line_based` is the
window list dressed up as chunks. -/
theorem chunk_file_line_based_eq_windows (ids : Nat → String)
    (fsId fp content : String) (cfg : IndexerConfig)
    (hN : cfg.max_chunk_lines < (rustLines content).length) :
    chunk_file_line_based ids fsId fp content cfg =
      assignIds ids ((windowLoop (rustLines content).length cfg.max_chunk_lines
          cfg.min_chunk_lines cfg.overlap_lines 0 false).map
        (fun w =>
          { id := ""
            filesystem_hex_id := fsId
            file_path := fp
            start_line := w.1 + 1
            end_line := w.2
            content := String.intercalate "\n"
              (((rustLines content).drop w.1).take (w.2 - w.1))
            language := detect_language fp })) := by
  unfold chunk_file_line_based
  rw [if_neg (by omega), if_neg (by omega)]

/-- C1 (amended): for a file whose line count `N` exceeds `max_chunk_lines`,
with `overlap_lines < max_chunk_lines` and `min_chunk_lines ≤ overlap_lines + 1`,
the line-based chunks cover exactly the lines `1..N` with no gap, and every
consecutive pair of chunks overlaps by exactly `overlap_lines` lines. -/
theorem chunk_file_line_based_covers (ids : Nat → String)
    (fsId fp content : String) (cfg : IndexerConfig)
    (hov : cfg.overlap_lines < cfg.max_chunk_lines)
    (hmin : cfg.min_chunk_lines ≤ cfg.overlap_lines + 1)
    (hN : cfg.max_chunk_lines < (rustLines content).length) :
    (∀ x, (1 ≤ x ∧ x ≤ (rustLines content).length) ↔
        ∃ c ∈ chunk_file_line_based ids fsId fp content cfg,
          c.start_line ≤ x ∧ x ≤ c.end_line) ∧
    List.Chain' (fun c c' : CodeChunk =>
        c'.start_line + cfg.overlap_lines = c.end_line + 1)
      (chunk_file_line_based ids fsId fp content cfg) := by
  rw [chunk_file_line_based_eq_windows ids fsId fp content cfg hN]
  set N := (rustLines content).length with hNdef
  set maxL := cfg.max_chunk_lines
  set minL := cfg.min_chunk_lines
  set ov := cfg.overlap_lines
  set W := windowLoop N maxL minL ov 0 false with hW
  set mkC : Nat × Nat → CodeChunk := fun w =>
    { id := ""
      filesystem_hex_id := fsId
      file_path := fp
      start_line := w.1 + 1
      end_line := w.2
      content := String.intercalate "\n"
        (((rustLines content).drop w.1).take (w.2 - w.1))
      language := detect_language fp } with hmkC
  have hmapLR : (assignIds ids (W.map mkC)).map lineRange =
      W.map (fun w => (w.1 + 1, w.2)) := by
    rw [assignIds_map_lineRange, List.map_map]
    rfl
  constructor
  · intro x
    constructor
    · rintro ⟨hx1, hx2⟩
      rcases windowLoop_cov N maxL minL ov hov hmin 0 false (by omega)
          (Or.inl rfl) (x - 1) (by omega) (by omega) with ⟨w, hwmem, hw1, hw2⟩
      have hrange : (w.1 + 1, w.2) ∈ (assignIds ids (W.map mkC)).map lineRange := by
        rw [hmapLR]
        exact List.mem_map.mpr ⟨w, hwmem, rfl⟩
      rcases List.mem_map.mp hrange with ⟨c, hcmem, hceq⟩
      refine ⟨c, hcmem, ?_, ?_⟩
      · have : c.start_line = w.1 + 1 := by
          have := congrArg Prod.fst hceq
          simpa [lineRange] using this
        omega
      · have : c.end_line = w.2 := by
          have := congrArg Prod.snd hceq
          simpa [lineRange] using this
        omega
    · rintro ⟨c, hcmem, hc1, hc2⟩
      have hrange : lineRange c ∈ (assignIds ids (W.map mkC)).map lineRange :=
        List.mem_map.mpr ⟨c, hcmem, rfl⟩
      rw [hmapLR] at hrange
      rcases List.mem_map.mp hrange with ⟨w, hwmem, hweq⟩
      rcases windowLoop_mem_shape N maxL minL ov 0 false w hwmem with ⟨_, hwlt, hwend⟩
      have hstart : c.start_line = w.1 + 1 := by
        have := congrArg Prod.fst hweq
        simpa [lineRange] using this.symm
      have hend : c.end_line = w.2 := by
        have := congrArg Prod.snd hweq
        simpa [lineRange] using this.symm
      constructor
      · omega
      · omega
  · have hchain := windowLoop_chain N maxL minL ov hov 0 false
    have hchainLR : List.Chain'
        (fun r r' : Nat × Nat => r'.1 + ov = r.2 + 1)
        ((assignIds ids (W.map mkC)).map lineRange) := by
      rw [hmapLR]
      rw [List.chain'_map]
      refine hchain.imp ?_
      rintro ⟨a1, a2⟩ ⟨b1, b2⟩ ⟨h1, h2⟩
      simp only [] at h1 h2 ⊢
      omega
    rw [List.chain'_map] at hchainLR
    refine hchainLR.imp ?_
    intro a b h
    simpa [lineRange] using h

/-- The configuration of the C1 counterexample: `max = 3`, `min = 3`,
`overlap = 1`, so `min ≤ max` and `overlap < max` but `min > overlap + 1`. -/
def cfgGap : IndexerConfig :=
  { max_chunk_lines := 3
    min_chunk_lines := 3
    overlap_lines := 1
    extensions := []
    ignore_dirs := [] }

/-- C1 counterexample: with `max = 3`, `min = 3`, `overlap = 1` (so
`overlap < max` and `min ≤ max`, as the claim assumes) and a 6-line file,
the discarded trailing window leaves line 6 uncovered: the claim's coverage
conclusion is false at this input. -/
theorem chunk_file_line_based_gap :
    (cfgGap.overlap_lines < cfgGap.max_chunk_lines ∧
     cfgGap.min_chunk_lines ≤ cfgGap.max_chunk_lines ∧
     cfgGap.max_chunk_lines < (rustLines "a\nb\nc\nd\ne\nf").length) ∧
    ¬ ∃ c ∈ chunk_file_line_based (fun _ => "u") "hex" "notes.txt"
        "a\nb\nc\nd\ne\nf" cfgGap,
        c.start_line ≤ 6 ∧ 6 ≤ c.end_line := by
  refine ⟨by decide, ?_⟩
  rw [chunk_file_line_based_eq_windows _ _ _ _ _ (by decide)]
  have hlen : (rustLines "a\nb\nc\nd\ne\nf").length = 6 := by decide
  rw [hlen]
  have hw : windowLoop 6 cfgGap.max_chunk_lines cfgGap.min_chunk_lines
      cfgGap.overlap_lines 0 false = [(0, 3), (2, 5)] := by
    simp [windowLoop, cfgGap]
  rw [hw]
  decide

/-- Witness for the amended C1 at `max = 3`, `min = 2`, `overlap = 1` on a
5-line file. -/
theorem chunk_file_line_based_covers_witness :
    List.Chain' (fun c c' : CodeChunk =>
        c'.start_line +
          (IndexerConfig.mk 3 2 1 [] []).overlap_lines = c.end_line + 1)
      (chunk_file_line_based (fun _ => "u") "hex" "notes.txt" "a\nb\nc\nd\ne"
        (IndexerConfig.mk 3 2 1 [] [])) :=
  (chunk_file_line_based_covers (fun _ => "u") "hex" "notes.txt" "a\nb\nc\nd\ne"
    (IndexerConfig.mk 3 2 1 [] []) (by decide) (by decide) (by decide)).2

/-- For a non-empty file no longer than `max_chunk_lines`,
`chunk_file_line_based` returns the single whole-file chunk. -/
theorem chunk_file_line_based_small (ids : Nat → String)
    (fsId fp content : String) (cfg : IndexerConfig)
    (h1 : 1 ≤ (rustLines content).length)
    (h2 : (rustLines content).length ≤ cfg.max_chunk_lines) :
    chunk_file_line_based ids fsId fp content cfg =
      [{ id := ids 0
         filesystem_hex_id := fsId
         file_path := fp
         start_line := 1
         end_line := (rustLines content).length
         content := content
         language := detect_language fp }] := by
  unfold chunk_file_line_based
  rw [if_neg (by omega), if_pos (by omega)]
  simp [assignIds]

/-- C2 (amended): in the sliding-window loop a candidate window is discarded
(and iteration terminated) exactly when its length is below `min_chunk_lines`
and a chunk was already emitted; consequently a line-based chunk shorter than
`min_chunk_lines` is always the first and only chunk of its file.  (The
tree-sitter unit path has no such floor; see the counterexample.) -/
theorem windowLoop_discard_iff_and_short_unique :
    (∀ N maxL minL ov s : Nat, ∀ ne : Bool, s < N →
      (windowLoop N maxL minL ov s ne = [] ↔
        (min (s + maxL) N - s < minL ∧ ne = true))) ∧
    (∀ (ids : Nat → String) (fsId fp content : String) (cfg : IndexerConfig)
        (c : CodeChunk),
      c ∈ chunk_file_line_based ids fsId fp content cfg →
      c.end_line + 1 - c.start_line < cfg.min_chunk_lines →
      chunk_file_line_based ids fsId fp content cfg = [c]) := by
  constructor
  · intro N maxL minL ov s ne hs
    rw [windowLoop, if_pos hs]
    by_cases hcond : (min (s + maxL) N - s < minL ∧ ne = true)
    · rw [if_pos hcond]
      simpa using hcond
    · rw [if_neg hcond]
      simp [hcond]
  · intro ids fsId fp content cfg c hc hshort
    by_cases h0 : (rustLines content).length = 0
    · unfold chunk_file_line_based at hc ⊢
      rw [if_pos h0] at hc
      simp at hc
    · by_cases hsmall : (rustLines content).length ≤ cfg.max_chunk_lines
      · rw [chunk_file_line_based_small ids fsId fp content cfg (by omega) hsmall] at hc ⊢
        simp at hc
        rw [hc]
      · have hN : cfg.max_chunk_lines < (rustLines content).length := by omega
        rw [chunk_file_line_based_eq_windows ids fsId fp content cfg hN] at hc ⊢
        set N := (rustLines content).length
        set maxL := cfg.max_chunk_lines
        set minL := cfg.min_chunk_lines
        set ov := cfg.overlap_lines
        set W := windowLoop N maxL minL ov 0 false with hWdef
        set mkC : Nat × Nat → CodeChunk := fun w =>
          { id := ""
            filesystem_hex_id := fsId
            file_path := fp
            start_line := w.1 + 1
            end_line := w.2
            content := String.intercalate "\n"
              (((rustLines content).drop w.1).take (w.2 - w.1))
            language := detect_language fp } with hmkC
        have hrange : lineRange c ∈ (assignIds ids (W.map mkC)).map lineRange :=
          List.mem_map.mpr ⟨c, hc, rfl⟩
        rw [assignIds_map_lineRange, List.map_map] at hrange
        rcases List.mem_map.mp hrange with ⟨w, hwmem, hweq⟩
        rcases windowLoop_mem_shape N maxL minL ov 0 false w hwmem with ⟨_, hwlt, hwend⟩
        have hstart : c.start_line = w.1 + 1 := by
          have := congrArg Prod.fst hweq
          simpa [lineRange, hmkC] using this.symm
        have hend : c.end_line = w.2 := by
          have := congrArg Prod.snd hweq
          simpa [lineRange, hmkC] using this.symm
        have hwshort : w.2 - w.1 < minL := by
          have hge : w.1 ≤ w.2 := by omega
          omega
        rcases windowLoop_short N maxL minL ov 0 false w hwmem hwshort with ⟨_, hW1⟩
        rw [← hWdef] at hW1
        rw [hW1]
        rw [hW1] at hc
        simp [assignIds] at hc ⊢
        rw [hc]

/-- A 5-line Python source with two small top-level function definitions. -/
def pySource : String :=
  "def f():\n    pass\n\ndef g():\n    pass"

/-- Modelled from the spec: the external tree-sitter Python grammar parses
`pySource` into a `module` root with two top-level `function_definition`
nodes (the grammar itself is an external dependency, not in the repository).
First definition: bytes 0..17, lines 0..1. -/
def pyFn1 : TSNode :=
  .mk "function_definition" 0 17 0 1 "def f():\n    pass" [("name", "f")] []

/-- Modelled from the spec: second Python `function_definition` node of
`pySource`, bytes 19..36, lines 3..4. -/
def pyFn2 : TSNode :=
  .mk "function_definition" 19 36 3 4 "def g():\n    pass" [("name", "g")] []

/-- Modelled from the spec: the `module` root node of `pySource`. -/
def pyModule : TSNode :=
  .mk "module" 0 36 0 4 pySource [] [pyFn1, pyFn2]

/-- Modelled from the spec: a parser that yields the `pySource` tree. -/
def ptPy : SupportedLanguage → String → Option TSNode :=
  fun _ _ => some pyModule

/-- A placeholder chunk for positional lookups in counterexamples. -/
def cZero : CodeChunk :=
  { id := ""
    filesystem_hex_id := ""
    file_path := ""
    start_line := 0
    end_line := 0
    content := ""
    language := none }

/-- C2 counterexample: on a supported language, `chunk_file` takes the
tree-sitter unit path and emits two chunks of 2 lines each — below
`min_chunk_lines = 5` — so a below-minimum chunk occurs that is neither the
first nor the only chunk of the file. -/
theorem chunk_file_short_not_unique :
    (chunk_file ptPy (fun _ => "u") "hex" "test.py" pySource
        IndexerConfig.default).length = 2 ∧
    ((chunk_file ptPy (fun _ => "u") "hex" "test.py" pySource
        IndexerConfig.default).getD 1 cZero).end_line + 1 -
      ((chunk_file ptPy (fun _ => "u") "hex" "test.py" pySource
        IndexerConfig.default).getD 1 cZero).start_line <
      IndexerConfig.default.min_chunk_lines := by
  decide

/-- C3 counterexample: `pySource` has 5 lines — between 1 and
`max_chunk_lines = 50` — yet `chunk_file` returns two chunks, one per parsed
declaration, not one chunk spanning the file. -/
theorem chunk_file_small_not_single :
    (1 ≤ (rustLines pySource).length ∧
     (rustLines pySource).length ≤ IndexerConfig.default.max_chunk_lines) ∧
    (chunk_file ptPy (fun _ => "u") "hex" "test.py" pySource
        IndexerConfig.default).length ≠ 1 := by
  decide

/-- `rustLines` of the empty string is empty (Rust `"".lines()` is empty). -/
theorem rustLines_empty : rustLines "" = [] := by
  decide

/-- C3 (amended): whenever the line-based path is taken (unsupported
extension, parse failure, or an empty semantic-unit list) and the content has
between 1 and `max_chunk_lines` lines, `chunk_file` returns exactly one chunk
spanning lines `1..N` with the content verbatim. -/
theorem chunk_file_small_single (pt : SupportedLanguage → String → Option TSNode)
    (ids : Nat → String) (fsId fp content : String) (cfg : IndexerConfig)
    (hts : ∀ lang, detect_supported_language fp = some lang →
      chunk_file_tree_sitter pt ids fsId fp content lang cfg = none ∨
      chunk_file_tree_sitter pt ids fsId fp content lang cfg = some [])
    (h1 : 1 ≤ (rustLines content).length)
    (h2 : (rustLines content).length ≤ cfg.max_chunk_lines) :
    chunk_file pt ids fsId fp content cfg =
      [{ id := ids 0
         filesystem_hex_id := fsId
         file_path := fp
         start_line := 1
         end_line := (rustLines content).length
         content := content
         language := detect_language fp }] := by
  have hcontent : content ≠ "" := by
    intro h
    rw [h, rustLines_empty] at h1
    simp at h1
  unfold chunk_file
  rw [if_neg hcontent]
  split
  · rename_i lang hdet
    split
    · rename_i cs hcs
      rcases hts lang hdet with hts' | hts'
      · rw [hts'] at hcs
        exact absurd hcs (by simp)
      · rw [hts'] at hcs
        have : cs = [] := (Option.some.inj hcs).symm
        rw [if_pos this]
        exact chunk_file_line_based_small ids fsId fp content cfg h1 h2
    · exact chunk_file_line_based_small ids fsId fp content cfg h1 h2
  · exact chunk_file_line_based_small ids fsId fp content cfg h1 h2

/-- Witness for the amended C3: an unsupported extension with a 3-line file
(the spec's `max=50` scenario) yields the single chunk spanning lines 1..3. -/
theorem chunk_file_small_single_witness :
    chunk_file ptPy (fun _ => "u") "hex" "notes.txt" "line 1\nline 2\nline 3"
        IndexerConfig.default =
      [{ id := "u"
         filesystem_hex_id := "hex"
         file_path := "notes.txt"
         start_line := 1
         end_line := (rustLines "line 1\nline 2\nline 3").length
         content := "line 1\nline 2\nline 3"
         language := detect_language "notes.txt" }] :=
  chunk_file_small_single ptPy (fun _ => "u") "hex" "notes.txt"
    "line 1\nline 2\nline 3" IndexerConfig.default
    (fun lang h => by simp [show detect_supported_language "notes.txt" = none from by decide] at h)
    (by decide) (by decide)

/-- Witness for C2: a 3-line file under the default config produces one chunk
of 3 lines — below `min_chunk_lines = 5` — and it is indeed the only chunk. -/
theorem windowLoop_discard_iff_and_short_unique_witness :
    chunk_file_line_based (fun _ => "u") "hex" "notes.txt" "a\nb\nc"
        IndexerConfig.default =
      [{ id := "u"
         filesystem_hex_id := "hex"
         file_path := "notes.txt"
         start_line := 1
         end_line := 3
         content := "a\nb\nc"
         language := some "txt" }] :=
  windowLoop_discard_iff_and_short_unique.2 (fun _ => "u") "hex" "notes.txt"
    "a\nb\nc" IndexerConfig.default
    { id := "u"
      filesystem_hex_id := "hex"
      file_path := "notes.txt"
      start_line := 1
      end_line := 3
      content := "a\nb\nc"
      language := some "txt" }
    (by decide) (by decide)

/-! ## Determinism modulo identifiers (C9) -/

/-- The line-based chunks of two calls differ at most in their identifiers. -/
theorem chunk_file_line_based_erase (ids ids' : Nat → String)
    (fsId fp content : String) (cfg : IndexerConfig) :
    (chunk_file_line_based ids fsId fp content cfg).map eraseId =
      (chunk_file_line_based ids' fsId fp content cfg).map eraseId := by
  unfold chunk_file_line_based
  by_cases h0 : (rustLines content).length = 0
  · rw [if_pos h0, if_pos h0]
  · rw [if_neg h0, if_neg h0]
    by_cases h1 : (rustLines content).length ≤ cfg.max_chunk_lines
    · rw [if_pos h1, if_pos h1, assignIds_map_eraseId, assignIds_map_eraseId]
    · rw [if_neg h1, if_neg h1, assignIds_map_eraseId, assignIds_map_eraseId]

/-- `assignIds` never changes the number of chunks. -/
theorem assignIds_eq_nil (ids : Nat → String) (l : List CodeChunk) :
    assignIds ids l = [] ↔ l = [] := by
  constructor
  · intro h
    have := congrArg List.length h
    rw [assignIds_length] at this
    exact List.length_eq_zero.mp this
  · intro h
    rw [h]
    rfl

/-- The common tree-path tail of `chunk_file`: if the identifier-dressed
chunk list is empty, fall back; either way the result forgets the supply. -/
theorem chunk_file_branch_erase (ids ids' : Nat → String)
    (fsId fp content : String) (cfg : IndexerConfig) (P : List CodeChunk) :
    (if assignIds ids P = [] then chunk_file_line_based ids fsId fp content cfg
      else assignIds ids P).map eraseId =
    (if assignIds ids' P = [] then chunk_file_line_based ids' fsId fp content cfg
      else assignIds ids' P).map eraseId := by
  by_cases hnil : P = []
  · rw [if_pos ((assignIds_eq_nil _ _).mpr hnil), if_pos ((assignIds_eq_nil _ _).mpr hnil)]
    exact chunk_file_line_based_erase ids ids' fsId fp content cfg
  · rw [if_neg (fun h => hnil ((assignIds_eq_nil _ _).mp h)),
      if_neg (fun h => hnil ((assignIds_eq_nil _ _).mp h))]
    rw [assignIds_map_eraseId, assignIds_map_eraseId]

/-- `chunk_file` on a detected supported language reduces to the tree-path
dispatch. -/
theorem chunk_file_eq_of_detect (pt : SupportedLanguage → String → Option TSNode)
    (ids : Nat → String) (fsId fp content : String) (cfg : IndexerConfig)
    (lang : SupportedLanguage) (h : detect_supported_language fp = some lang)
    (hc : content ≠ "") :
    chunk_file pt ids fsId fp content cfg =
      (match chunk_file_tree_sitter pt ids fsId fp content lang cfg with
       | some cs => if cs = [] then chunk_file_line_based ids fsId fp content cfg else cs
       | none => chunk_file_line_based ids fsId fp content cfg) := by
  unfold chunk_file
  rw [if_neg hc, h]

/-- `chunk_file` on an unsupported extension is the line-based fallback. -/
theorem chunk_file_eq_of_detect_none (pt : SupportedLanguage → String → Option TSNode)
    (ids : Nat → String) (fsId fp content : String) (cfg : IndexerConfig)
    (h : detect_supported_language fp = none) (hc : content ≠ "") :
    chunk_file pt ids fsId fp content cfg =
      chunk_file_line_based ids fsId fp content cfg := by
  unfold chunk_file
  rw [if_neg hc, h]

/-- A failed parse yields no tree-sitter chunks. -/
theorem chunk_file_tree_sitter_of_pt_none (pt : SupportedLanguage → String → Option TSNode)
    (ids : Nat → String) (fsId fp content : String) (lang : SupportedLanguage)
    (cfg : IndexerConfig) (h : pt lang content = none) :
    chunk_file_tree_sitter pt ids fsId fp content lang cfg = none := by
  unfold chunk_file_tree_sitter
  rw [h]

/-- A successful parse dispatches on the extracted unit list. -/
theorem chunk_file_tree_sitter_of_pt_some (pt : SupportedLanguage → String → Option TSNode)
    (ids : Nat → String) (fsId fp content : String) (lang : SupportedLanguage)
    (cfg : IndexerConfig) (root : TSNode) (h : pt lang content = some root) :
    chunk_file_tree_sitter pt ids fsId fp content lang cfg =
      (if extract_semantic_units lang root = [] then none
       else some (assignIds ids
        ((extract_semantic_units lang root).foldl
          (tsUnitChunks cfg fsId fp (some lang.name)) []))) := by
  unfold chunk_file_tree_sitter
  rw [h]

/-- C9 (amended): `chunk_file` is deterministic in everything but the chunk
identifiers: two calls with identical collection id, path, content and config
(and the same external parser) return chunk lists that are equal after the
freshly drawn identifiers are erased. -/
theorem chunk_file_deterministic_mod_ids
    (pt : SupportedLanguage → String → Option TSNode) (ids ids' : Nat → String)
    (fsId fp content : String) (cfg : IndexerConfig) :
    (chunk_file pt ids fsId fp content cfg).map eraseId =
      (chunk_file pt ids' fsId fp content cfg).map eraseId := by
  by_cases hc : content = ""
  · unfold chunk_file
    rw [if_pos hc, if_pos hc]
  · cases hdet : detect_supported_language fp with
    | none =>
      rw [chunk_file_eq_of_detect_none pt ids fsId fp content cfg hdet hc,
        chunk_file_eq_of_detect_none pt ids' fsId fp content cfg hdet hc]
      exact chunk_file_line_based_erase ids ids' fsId fp content cfg
    | some lang =>
      rw [chunk_file_eq_of_detect pt ids fsId fp content cfg lang hdet hc,
        chunk_file_eq_of_detect pt ids' fsId fp content cfg lang hdet hc]
      cases hpt : pt lang content with
      | none =>
        rw [chunk_file_tree_sitter_of_pt_none pt ids fsId fp content lang cfg hpt,
          chunk_file_tree_sitter_of_pt_none pt ids' fsId fp content lang cfg hpt]
        exact chunk_file_line_based_erase ids ids' fsId fp content cfg
      | some root =>
        rw [chunk_file_tree_sitter_of_pt_some pt ids fsId fp content lang cfg root hpt,
          chunk_file_tree_sitter_of_pt_some pt ids' fsId fp content lang cfg root hpt]
        by_cases hu : extract_semantic_units lang root = []
        · rw [if_pos hu, if_pos hu]
          exact chunk_file_line_based_erase ids ids' fsId fp content cfg
        · rw [if_neg hu, if_neg hu]
          exact chunk_file_branch_erase ids ids' fsId fp content cfg _

/-- C9 counterexample: two calls of `chunk_file` with identical collection
id, path, content and config return different chunk lists when the random
UUID draws differ — the identifiers are not deterministic. -/
theorem chunk_file_ids_differ :
    chunk_file ptPy (fun _ => "u1") "hex" "notes.txt" "a\nb"
        IndexerConfig.default ≠
      chunk_file ptPy (fun _ => "u2") "hex" "notes.txt" "a\nb"
        IndexerConfig.default := by
  decide

/-! ## Extractor characterization (C4) -/

mutual

/-- Structural induction for `TSNode` with a companion motive on child
lists. -/
def TSNode.indP (P : TSNode → Prop) (Q : List TSNode → Prop)
    (hmk : ∀ k sb eb sl el tx f cs, Q cs → P (.mk k sb eb sl el tx f cs))
    (hnil : Q []) (hcons : ∀ n l, P n → Q l → Q (n :: l)) : ∀ n : TSNode, P n
  | .mk k sb eb sl el tx f cs =>
    hmk k sb eb sl el tx f cs (TSNode.indListP P Q hmk hnil hcons cs)

/-- List companion of `TSNode.indP`. -/
def TSNode.indListP (P : TSNode → Prop) (Q : List TSNode → Prop)
    (hmk : ∀ k sb eb sl el tx f cs, Q cs → P (.mk k sb eb sl el tx f cs))
    (hnil : Q []) (hcons : ∀ n l, P n → Q l → Q (n :: l)) : ∀ l : List TSNode, Q l
  | [] => hnil
  | n :: l =>
    hcons n l (TSNode.indP P Q hmk hnil hcons n) (TSNode.indListP P Q hmk hnil hcons l)

end

/-- `Collects kinds n m`: the walk that starts at `n` and descends only
through unmatched nodes reaches the matched node `m` — i.e., `m`'s kind is in
`kinds` and no node strictly above it on the path (from `n` down) is
matched. -/
inductive Collects (kinds : List String) : TSNode → TSNode → Prop where
  | matched (n : TSNode) : n.kind ∈ kinds → Collects kinds n n
  | descend (n c m : TSNode) : n.kind ∉ kinds → c ∈ n.children →
      Collects kinds c m → Collects kinds n m

/-- Inversion: below a matched node the walk stops at that node. -/
theorem Collects.eq_of_matched {kinds : List String} {n m : TSNode}
    (h : Collects kinds n m) (hk : n.kind ∈ kinds) : m = n := by
  cases h with
  | matched _ _ => rfl
  | descend _ c _ hnk _ _ => exact absurd hk hnk

/-- Inversion: below an unmatched node the walk goes through a child. -/
theorem Collects.child_of_not_matched {kinds : List String} {n m : TSNode}
    (h : Collects kinds n m) (hk : n.kind ∉ kinds) :
    ∃ c ∈ n.children, Collects kinds c m := by
  cases h with
  | matched _ hm => exact absurd hm hk
  | descend _ c _ _ hc hcm => exact ⟨c, hc, hcm⟩

/-- Splitting membership in the sequential child walk. -/
theorem mem_collectChildren (kinds : List String) (l : List TSNode) (u : SemanticUnit) :
    u ∈ collectChildren kinds l ↔ ∃ c ∈ l, u ∈ collect_semantic_units kinds c := by
  induction l with
  | nil => simp [collectChildren]
  | cons c cs ih =>
    rw [collectChildren, List.mem_append, ih]
    constructor
    · rintro (h | ⟨d, hd, hu⟩)
      · exact ⟨c, List.mem_cons_self _ _, h⟩
      · exact ⟨d, List.mem_cons_of_mem _ hd, hu⟩
    · rintro ⟨d, hd, hu⟩
      rcases List.mem_cons.mp hd with h | h
      · subst h
        exact Or.inl hu
      · exact Or.inr ⟨d, h, hu⟩

/-- The walk emits a unit exactly for each matched node reachable through
unmatched ancestors (and nothing from inside a matched node's subtree). -/
theorem mem_collect_semantic_units (kinds : List String) :
    ∀ n : TSNode, ∀ u, u ∈ collect_semantic_units kinds n ↔
      ∃ m, Collects kinds n m ∧ u = mkUnit m := by
  intro n
  induction n using TSNode.indP
    (Q := fun l => ∀ u, u ∈ collectChildren kinds l ↔
      ∃ c ∈ l, ∃ m, Collects kinds c m ∧ u = mkUnit m) with
  | hmk k sb eb sl el tx f cs hQ =>
    intro u
    rw [collect_semantic_units]
    by_cases hk : k ∈ kinds
    · rw [if_pos hk]
      constructor
      · intro hu
        refine ⟨.mk k sb eb sl el tx f cs, Collects.matched _ hk, ?_⟩
        simpa using hu
      · rintro ⟨m, hm, hu⟩
        have hmn : m = .mk k sb eb sl el tx f cs := hm.eq_of_matched hk
        subst hmn
        simpa using hu
    · rw [if_neg hk]
      rw [hQ u]
      constructor
      · rintro ⟨c, hc, m, hm, hu⟩
        exact ⟨m, Collects.descend _ c m hk hc hm, hu⟩
      · rintro ⟨m, hm, hu⟩
        rcases hm.child_of_not_matched hk with ⟨c, hc, hcm⟩
        exact ⟨c, hc, m, hcm, hu⟩
  | hnil =>
    rename_i u
    simp [collectChildren]
  | hcons n l hP hQ =>
    rename_i u
    rw [collectChildren, List.mem_append]
    constructor
    · rintro (h | h)
      · rcases (hP u).mp h with ⟨m, hm, hu⟩
        exact ⟨n, List.mem_cons_self _ _, m, hm, hu⟩
      · rcases (hQ u).mp h with ⟨c, hc, m, hm, hu⟩
        exact ⟨c, List.mem_cons_of_mem _ hc, m, hm, hu⟩
    · rintro ⟨c, hc, m, hm, hu⟩
      rcases List.mem_cons.mp hc with h | h
      · subst h
        exact Or.inl ((hP u).mpr ⟨m, hm, hu⟩)
      · exact Or.inr ((hQ u).mpr ⟨c, h, m, hm, hu⟩)

/-- Sibling order of a parsed tree: consecutive children occupy
non-overlapping, increasing byte ranges. -/
def sibOrder : List TSNode → Bool
  | [] => true
  | [_] => true
  | a :: b :: t => (decide (a.endByte ≤ b.startByte)) && sibOrder (b :: t)

mutual

/-- Positional well-formedness of a parsed tree: every node's byte range is
non-degenerate, children lie inside their parent and come in document
order.  Every tree produced by tree-sitter satisfies this. -/
def wfNode : TSNode → Bool
  | .mk _ sb eb _ _ _ _ cs => (decide (sb ≤ eb)) && sibOrder cs && wfList sb eb cs

/-- Companion of `wfNode` for child lists inside byte bounds. -/
def wfList (sb eb : Nat) : List TSNode → Bool
  | [] => true
  | c :: cs =>
    (decide (sb ≤ c.startByte)) && (decide (c.endByte ≤ eb)) && wfNode c && wfList sb eb cs

end

/-- A well-formed node's byte bounds. -/
theorem wfNode_le {n : TSNode} (h : wfNode n = true) : n.startByte ≤ n.endByte := by
  cases n with
  | mk k sb eb sl el tx f cs =>
    rw [wfNode] at h
    simp at h
    exact h.1.1

/-- Every unit collected inside a well-formed node stays inside the node's
byte range and has a non-degenerate range. -/
theorem collect_semantic_units_bounds (kinds : List String) :
    ∀ n : TSNode, wfNode n = true →
      ∀ u ∈ collect_semantic_units kinds n,
        n.startByte ≤ u.start_byte ∧ u.end_byte ≤ n.endByte ∧
          u.start_byte ≤ u.end_byte := by
  intro n
  induction n using TSNode.indP
    (Q := fun l => ∀ sb eb, wfList sb eb l = true →
      ∀ u ∈ collectChildren kinds l,
        sb ≤ u.start_byte ∧ u.end_byte ≤ eb ∧ u.start_byte ≤ u.end_byte) with
  | hmk k sb eb sl el tx f cs hQ =>
    intro hwf u hu
    rw [wfNode] at hwf
    simp only [Bool.and_eq_true, decide_eq_true_eq] at hwf
    rcases hwf with ⟨⟨hsbeb, _⟩, hlist⟩
    rw [collect_semantic_units] at hu
    by_cases hk : k ∈ kinds
    · rw [if_pos hk] at hu
      simp at hu
      subst hu
      exact ⟨le_refl _, le_refl _, hsbeb⟩
    · rw [if_neg hk] at hu
      exact hQ sb eb hlist u hu
  | hnil =>
    rename_i sb eb hwf u hu
    simp [collectChildren] at hu
  | hcons n l hP hQ =>
    rename_i sb eb hwf u hu
    rw [wfList] at hwf
    simp only [Bool.and_eq_true, decide_eq_true_eq] at hwf
    rcases hwf with ⟨⟨⟨hsb, heb⟩, hn⟩, hl⟩
    rw [collectChildren, List.mem_append] at hu
    rcases hu with h | h
    · rcases hP hn u h with ⟨h1, h2, h3⟩
      exact ⟨le_trans hsb h1, le_trans h2 heb, h3⟩
    · exact hQ sb eb hl u h

/-- Tail of a document-ordered sibling list. -/
theorem sibOrder_tail {a : TSNode} {l : List TSNode} (h : sibOrder (a :: l) = true) :
    sibOrder l = true := by
  cases l with
  | nil => rfl
  | cons b t =>
    rw [sibOrder] at h
    simp at h
    exact h.2

/-- A well-formed sibling list is well-formed member-wise. -/
theorem wfList_mem {sb eb : Nat} {l : List TSNode} (h : wfList sb eb l = true) :
    ∀ d ∈ l, wfNode d = true := by
  induction l with
  | nil => intro d hd; simp at hd
  | cons c cs ih =>
    rw [wfList] at h
    simp only [Bool.and_eq_true, decide_eq_true_eq] at h
    intro d hd
    rcases List.mem_cons.mp hd with h' | h'
    · subst h'
      exact h.1.2
    · exact ih h.2 d h'

/-- In a document-ordered, well-formed sibling list the head's byte range
precedes every later sibling's. -/
theorem sep_of_sibOrder {a : TSNode} {l : List TSNode} {sb eb : Nat}
    (hsib : sibOrder (a :: l) = true) (hwf : wfList sb eb l = true) :
    ∀ d ∈ l, a.endByte ≤ d.startByte := by
  induction l generalizing a with
  | nil => intro d hd; simp at hd
  | cons b t ih =>
    rw [sibOrder] at hsib
    simp only [Bool.and_eq_true, decide_eq_true_eq] at hsib
    rw [wfList] at hwf
    simp only [Bool.and_eq_true, decide_eq_true_eq] at hwf
    intro d hd
    rcases List.mem_cons.mp hd with h' | h'
    · subst h'
      exact hsib.1
    · have hb := wfNode_le hwf.1.2
      have := ih hsib.2 hwf.2 d h'
      omega

/-- The walk emits units in document order: inside a well-formed tree, each
emitted unit's byte range ends before the next one starts. -/
theorem collect_semantic_units_pairwise (kinds : List String) :
    ∀ n : TSNode, wfNode n = true →
      List.Pairwise (fun u v : SemanticUnit => u.end_byte ≤ v.start_byte)
        (collect_semantic_units kinds n) := by
  intro n
  induction n using TSNode.indP
    (Q := fun l => ∀ sb eb, sibOrder l = true → wfList sb eb l = true →
      List.Pairwise (fun u v : SemanticUnit => u.end_byte ≤ v.start_byte)
        (collectChildren kinds l)) with
  | hmk k sb eb sl el tx f cs hQ =>
    intro hwf
    rw [wfNode] at hwf
    simp only [Bool.and_eq_true, decide_eq_true_eq] at hwf
    rw [collect_semantic_units]
    by_cases hk : k ∈ kinds
    · rw [if_pos hk]
      exact List.pairwise_singleton _ _
    · rw [if_neg hk]
      exact hQ sb eb hwf.1.2 hwf.2
  | hnil =>
    rename_i sb eb hsib hwf
    simp [collectChildren]
  | hcons n l hP hQ =>
    rename_i sb eb hsib hwf
    rw [wfList] at hwf
    simp only [Bool.and_eq_true, decide_eq_true_eq] at hwf
    rcases hwf with ⟨⟨⟨hsb, heb⟩, hn⟩, hl⟩
    rw [collectChildren]
    rw [List.pairwise_append]
    refine ⟨hP hn, hQ sb eb (sibOrder_tail hsib) hl, ?_⟩
    intro u hu v hv
    rcases collect_semantic_units_bounds kinds n hn u hu with ⟨_, hu2, _⟩
    rcases (mem_collectChildren kinds l v).mp hv with ⟨d, hd, hvd⟩
    rcases collect_semantic_units_bounds kinds d (wfList_mem hl d hd) v hvd with ⟨hv1, _, _⟩
    have hsep := sep_of_sibOrder hsib hl d hd
    omega

/-- Document-order for the child walk, list form. -/
theorem collectChildren_pairwise (kinds : List String) :
    ∀ (l : List TSNode) (sb eb : Nat), sibOrder l = true → wfList sb eb l = true →
      List.Pairwise (fun u v : SemanticUnit => u.end_byte ≤ v.start_byte)
        (collectChildren kinds l) := by
  intro l
  induction l with
  | nil =>
    intro sb eb hsib hwf
    simp [collectChildren]
  | cons n t ih =>
    intro sb eb hsib hwf
    rw [wfList] at hwf
    simp only [Bool.and_eq_true, decide_eq_true_eq] at hwf
    rcases hwf with ⟨⟨⟨hsb, heb⟩, hn⟩, hl⟩
    rw [collectChildren, List.pairwise_append]
    refine ⟨collect_semantic_units_pairwise kinds n hn,
      ih sb eb (sibOrder_tail hsib) hl, ?_⟩
    intro u hu v hv
    rcases collect_semantic_units_bounds kinds n hn u hu with ⟨_, hu2, _⟩
    rcases (mem_collectChildren kinds t v).mp hv with ⟨d, hd, hvd⟩
    rcases collect_semantic_units_bounds kinds d (wfList_mem hl d hd) v hvd with ⟨hv1, _, _⟩
    have hsep := sep_of_sibOrder hsib hl d hd
    omega

/-- An 11-line Rust source with two top-level functions and one struct. -/
def rustSource : String :=
  "fn foo() \x7b\n    1\n\x7d\n\nfn bar() \x7b\n    2\n\x7d\n\nstruct S \x7b\n    f: u32,\n\x7d"

/-- Modelled from the spec: the external tree-sitter Rust grammar parses
`rustSource` into a `source_file` root with two `function_item` nodes and one
`struct_item` node (the grammar is an external dependency).  First function:
bytes 0..18, lines 0..2. -/
def rustFn1 : TSNode :=
  .mk "function_item" 0 18 0 2 "fn foo() \x7b\n    1\n\x7d" [("name", "foo")] []

/-- Modelled from the spec: second `function_item` of `rustSource`, bytes
20..38, lines 4..6. -/
def rustFn2 : TSNode :=
  .mk "function_item" 20 38 4 6 "fn bar() \x7b\n    2\n\x7d" [("name", "bar")] []

/-- Modelled from the spec: the `struct_item` of `rustSource`, bytes 40..64,
lines 8..10. -/
def rustStruct : TSNode :=
  .mk "struct_item" 40 64 8 10 "struct S \x7b\n    f: u32,\n\x7d" [("name", "S")] []

/-- Modelled from the spec: the `source_file` root node of `rustSource`. -/
def rustModule : TSNode :=
  .mk "source_file" 0 64 0 10 rustSource [] [rustFn1, rustFn2, rustStruct]

/-- Modelled from the spec: a parser that yields the `rustSource` tree. -/
def ptRust : SupportedLanguage → String → Option TSNode :=
  fun _ _ => some rustModule

/-- C4: `extract_semantic_units` emits exactly one unit per matched node
reachable through unmatched ancestors (so never a node inside a matched
subtree, while declarations under unmatched wrappers are found), emits them
in document order on any positionally well-formed tree, and on the
three-declaration Rust scenario `chunk_file` returns exactly 3 chunks, one
per declaration, in source order. -/
theorem extract_semantic_units_spec (lang : SupportedLanguage) (root : TSNode)
    (hwf : wfNode root = true) :
    (∀ u, u ∈ extract_semantic_units lang root ↔
        ∃ c ∈ root.children, ∃ m, Collects lang.top_level_kinds c m ∧ u = mkUnit m) ∧
    List.Pairwise (fun u v : SemanticUnit => u.end_byte ≤ v.start_byte)
      (extract_semantic_units lang root) ∧
    chunk_file ptRust (fun _ => "u") "hex" "test.rs" rustSource IndexerConfig.default =
      [{ id := "u"
         filesystem_hex_id := "hex"
         file_path := "test.rs"
         start_line := 1
         end_line := 3
         content := "fn foo() \x7b\n    1\n\x7d"
         language := some "rust" },
       { id := "u"
         filesystem_hex_id := "hex"
         file_path := "test.rs"
         start_line := 5
         end_line := 7
         content := "fn bar() \x7b\n    2\n\x7d"
         language := some "rust" },
       { id := "u"
         filesystem_hex_id := "hex"
         file_path := "test.rs"
         start_line := 9
         end_line := 11
         content := "struct S \x7b\n    f: u32,\n\x7d"
         language := some "rust" }] := by
  refine ⟨?_, ?_, by decide⟩
  · intro u
    rw [extract_semantic_units, mem_collectChildren]
    constructor
    · rintro ⟨c, hc, hu⟩
      rcases (mem_collect_semantic_units _ c u).mp hu with ⟨m, hm, hu'⟩
      exact ⟨c, hc, m, hm, hu'⟩
    · rintro ⟨c, hc, m, hm, hu⟩
      exact ⟨c, hc, (mem_collect_semantic_units _ c u).mpr ⟨m, hm, hu⟩⟩
  · cases root with
    | mk k sb eb sl el tx f cs =>
      rw [wfNode] at hwf
      simp only [Bool.and_eq_true, decide_eq_true_eq] at hwf
      rw [extract_semantic_units]
      exact collectChildren_pairwise _ cs sb eb hwf.1.2 hwf.2

/-- Witness for C4 at the concrete Rust scenario tree: the extracted units
are in document order. -/
theorem extract_semantic_units_spec_witness :
    List.Pairwise (fun u v : SemanticUnit => u.end_byte ≤ v.start_byte)
      (extract_semantic_units .rust rustModule) :=
  (extract_semantic_units_spec .rust rustModule (by decide)).2.1

/-! ## Search ordering and collection filtering (C5) -/

/-- C5: `search` returns results in ascending distance order; with a
non-empty collection-id set every returned chunk's collection id belongs to
the set; with an empty set the pipeline is the unfiltered one, so chunks
from all collections are eligible. -/
theorem search_sorted_and_scoped (dist : List ℚ → List ℚ → ℚ) (st : StoreState)
    (q : List ℚ) (fsIds : List String) (limit : Nat) :
    List.Sorted (· ≤ ·)
      ((VectorStore_search dist st q fsIds limit).map SearchResult.distance) ∧
    (∀ r, r ∈ VectorStore_search dist st q fsIds limit → fsIds ≠ [] →
      r.chunk.filesystem_hex_id ∈ fsIds) ∧
    VectorStore_search dist st q [] limit = searchAllCollections dist st q limit := by
  refine ⟨?_, ?_, rfl⟩
  · unfold VectorStore_search
    unfold List.Sorted
    rw [List.pairwise_map]
    exact List.sorted_insertionSort distLE _
  · intro r hr hne
    unfold VectorStore_search at hr
    have hr' := (List.perm_insertionSort distLE _).mem_iff.mp hr
    rw [if_neg (by simpa [List.isEmpty_iff] using hne)] at hr'
    rcases List.mem_filter.mp hr' with ⟨_, hcond⟩
    simpa using hcond

/-- The one-chunk store of the C5 witness. -/
def stWit : StoreState :=
  { chunks := [{ id := "a1"
                 filesystem_hex_id := "A"
                 file_path := "f.rs"
                 start_line := 1
                 end_line := 2
                 content := "fn"
                 language := some "rust" }]
    embeddings := [("a1", [0])] }

/-- Witness for C5: on a concrete one-chunk store, the result returned for
the id set `["A"]` carries a collection id in the set. -/
theorem search_sorted_and_scoped_witness :
    (SearchResult.mk
      { id := "a1"
        filesystem_hex_id := "A"
        file_path := "f.rs"
        start_line := 1
        end_line := 2
        content := "fn"
        language := some "rust" } 0).chunk.filesystem_hex_id ∈ ["A"] :=
  (search_sorted_and_scoped (fun _ _ => 0) stWit [0] ["A"] 5).2.1
    (SearchResult.mk
      { id := "a1"
        filesystem_hex_id := "A"
        file_path := "f.rs"
        start_line := 1
        end_line := 2
        content := "fn"
        language := some "rust" } 0)
    (by decide) (by decide)

/-! ## Table-pairing invariant (C6, C7) -/

/-- Keys of a key-filtered map: dropping the rows with key `k`. -/
theorem mem_map_filter_ne_key {α β : Type} [DecidableEq β] (f : α → β) (l : List α)
    (k x : β) :
    x ∈ (l.filter (fun a => ¬ f a = k)).map f ↔ x ∈ l.map f ∧ x ≠ k := by
  simp only [List.mem_map, List.mem_filter, decide_eq_true_eq]
  constructor
  · rintro ⟨a, ⟨ha, hak⟩, hax⟩
    exact ⟨⟨a, ha, hax⟩, by rw [← hax]; exact hak⟩
  · rintro ⟨⟨a, ha, hax⟩, hxk⟩
    exact ⟨a, ⟨ha, by rw [hax]; exact hxk⟩, hax⟩

/-- Keys of a filtered row list stay duplicate-free. -/
theorem nodup_map_filter {α β : Type} (f : α → β) (p : α → Bool) (l : List α)
    (h : (l.map f).Nodup) : ((l.filter p).map f).Nodup :=
  ((l.filter_sublist).map f).nodup h

/-- A successful `insert` (upsert into both tables) preserves the
chunk/vector pairing. -/
theorem pairedInv_insert_ok (st : StoreState) (c : CodeChunk) (v : List ℚ)
    (h : pairedInv st) : pairedInv (VectorStore_insert none c v st).2 := by
  rcases h with ⟨hc, he, hce, hec⟩
  simp only [VectorStore_insert, upsertChunk, upsertEmbedding]
  refine ⟨?_, ?_, ?_, ?_⟩
  · rw [List.map_append, List.nodup_append]
    refine ⟨nodup_map_filter _ _ _ hc, List.nodup_singleton _, ?_⟩
    intro x hx hx1
    simp only [List.map_cons, List.map_nil, List.mem_singleton] at hx1
    rcases (mem_map_filter_ne_key (fun r => r.id) st.chunks c.id x).mp hx with ⟨_, hne⟩
    exact hne hx1
  · rw [List.map_append, List.nodup_append]
    refine ⟨nodup_map_filter _ _ _ he, List.nodup_singleton _, ?_⟩
    intro x hx hx1
    simp only [List.map_cons, List.map_nil, List.mem_singleton] at hx1
    rcases (mem_map_filter_ne_key (fun r => r.1) st.embeddings c.id x).mp hx with ⟨_, hne⟩
    exact hne hx1
  · intro a ha
    rw [List.mem_append] at ha
    rw [List.map_append]
    rw [List.mem_append]
    rcases ha with ha | ha
    · rcases List.mem_filter.mp ha with ⟨hmem, hne⟩
      simp only [decide_eq_true_eq] at hne
      left
      exact (mem_map_filter_ne_key (fun r => r.1) st.embeddings c.id a.id).mpr
        ⟨hce a hmem, hne⟩
    · right
      simp only [List.mem_singleton] at ha
      rw [ha]
      simp
  · intro r hr
    rw [List.mem_append] at hr
    rw [List.map_append]
    rw [List.mem_append]
    rcases hr with hr | hr
    · rcases List.mem_filter.mp hr with ⟨hmem, hne⟩
      simp only [decide_eq_true_eq] at hne
      left
      exact (mem_map_filter_ne_key (fun cc => cc.id) st.chunks c.id r.1).mpr
        ⟨hec r hmem, hne⟩
    · right
      simp only [List.mem_singleton] at hr
      rw [hr]
      simp

/-- Deleting the rows of a chunk predicate from both tables (the shape shared
by `remove_file` and `clear_filesystem`) preserves the pairing. -/
theorem pairedInv_removeWhere (st : StoreState) (p : CodeChunk → Bool)
    (h : pairedInv st) :
    pairedInv
      { chunks := st.chunks.filter (fun c => ¬ p c)
        embeddings := st.embeddings.filter
          (fun r => ¬ r.1 ∈ (st.chunks.filter p).map (fun c => c.id)) } := by
  rcases h with ⟨hc, he, hce, hec⟩
  refine ⟨nodup_map_filter _ _ _ hc, nodup_map_filter _ _ _ he, ?_, ?_⟩
  · intro a ha
    rcases List.mem_filter.mp ha with ⟨hmem, hnp⟩
    simp only [decide_eq_true_eq] at hnp
    have haid := hce a hmem
    rcases List.mem_map.mp haid with ⟨r, hr, hrid⟩
    refine List.mem_map.mpr ⟨r, List.mem_filter.mpr ⟨hr, ?_⟩, hrid⟩
    simp only [decide_eq_true_eq]
    intro hbad
    rcases List.mem_map.mp hbad with ⟨b, hb, hbid⟩
    rcases List.mem_filter.mp hb with ⟨hbmem, hbp⟩
    have : b = a := List.inj_on_of_nodup_map hc hbmem hmem (by rw [hbid, hrid])
    rw [this] at hbp
    exact hnp (by simpa using hbp)
  · intro r hr
    rcases List.mem_filter.mp hr with ⟨hmem, hnk⟩
    simp only [decide_eq_true_eq] at hnk
    have hrid := hec r hmem
    rcases List.mem_map.mp hrid with ⟨a, ha, haid⟩
    refine List.mem_map.mpr ⟨a, List.mem_filter.mpr ⟨ha, ?_⟩, haid⟩
    simp only [decide_eq_true_eq]
    intro hpa
    exact hnk (List.mem_map.mpr ⟨a, List.mem_filter.mpr ⟨ha, by simpa using hpa⟩, haid⟩)

/-- C7 (amended): on a store satisfying the pairing invariant, an `insert`
that fails at the metadata upsert leaves both tables unchanged, and every
successful `insert`, `remove_file` or `clear_filesystem` preserves the
one-to-one chunk/vector pairing.  (A failure after the metadata upsert does
mutate the store; see the counterexample.) -/
theorem store_pairing_preserved (st : StoreState) (c : CodeChunk) (v : List ℚ)
    (fsId fp : String) (h : pairedInv st) :
    (VectorStore_insert (some .metadataUpsert) c v st).2 = st ∧
    pairedInv (VectorStore_insert none c v st).2 ∧
    pairedInv (remove_file fsId fp st).2 ∧
    pairedInv (clear_filesystem fsId st).2 := by
  refine ⟨rfl, pairedInv_insert_ok st c v h, ?_, ?_⟩
  · exact pairedInv_removeWhere st (fileMatches fsId fp) h
  · exact pairedInv_removeWhere st (fun cc => cc.filesystem_hex_id = fsId) h

/-- The chunk inserted by the C7 counterexample. -/
def cSer : CodeChunk :=
  { id := "c1"
    filesystem_hex_id := "A"
    file_path := "main.rs"
    start_line := 1
    end_line := 2
    content := "fn main() \x7b\x7d"
    language := some "rust" }

/-- Recognizer for a serialization failure of `insert`. -/
def isSerializationError : Except StoreError Unit → Bool
  | .error (.serialization _) => true
  | _ => false

/-- C7 counterexample: `insert` has no transaction — when the embedding
serialization fails after the metadata upsert, the call returns an error yet
the metadata table has changed and the pairing invariant is broken. -/
theorem insert_error_mutates :
    pairedInv (StoreState.mk [] []) ∧
    isSerializationError
      (VectorStore_insert (some .serializeEmbedding) cSer [0] (StoreState.mk [] [])).1 =
      true ∧
    (VectorStore_insert (some .serializeEmbedding) cSer [0] (StoreState.mk [] [])).2 ≠
      StoreState.mk [] [] ∧
    ¬ pairedInv
      (VectorStore_insert (some .serializeEmbedding) cSer [0] (StoreState.mk [] [])).2 := by
  decide

/-- Witness for C7 on a concrete paired store. -/
theorem store_pairing_preserved_witness :
    pairedInv (VectorStore_insert none cSer [1] stWit).2 :=
  (store_pairing_preserved stWit cSer [1] "A" "f.rs" (by decide)).2.1

/-- One step of the caller-side replace sequence. -/
theorem insertAll_cons (q : CodeChunk × List ℚ) (rest : List (CodeChunk × List ℚ))
    (st : StoreState) :
    insertAll (q :: rest) st = insertAll rest (VectorStore_insert none q.1 q.2 st).2 :=
  rfl

/-- Inserting pairs whose ids all differ from `x` does not touch the
embedding rows keyed `x`. -/
theorem insertAll_embeddings_other :
    ∀ (pairs : List (CodeChunk × List ℚ)) (st : StoreState) (x : String),
      (∀ q ∈ pairs, ¬ q.1.id = x) →
      (insertAll pairs st).embeddings.filter (fun r => r.1 = x) =
        st.embeddings.filter (fun r => r.1 = x) := by
  intro pairs
  induction pairs with
  | nil =>
    intro st x _
    rfl
  | cons q rest ih =>
    intro st x hne
    rw [insertAll_cons]
    rw [ih _ x (fun r hr => hne r (List.mem_cons_of_mem _ hr))]
    have hqx : ¬ q.1.id = x := hne q (List.mem_cons_self _ _)
    simp only [VectorStore_insert, upsertChunk, upsertEmbedding]
    rw [List.filter_append, List.filter_filter]
    have h2 : List.filter (fun r : String × List ℚ => decide (r.1 = x)) [(q.1.id, q.2)] = [] := by
      simp [hqx]
    rw [h2, List.append_nil]
    refine List.filter_congr ?_
    intro r _
    by_cases hx : r.1 = x
    · have hnq : ¬ r.1 = q.1.id := by
        rw [hx]
        intro h
        exact hqx h.symm
      simp only [hx] at hnq
      simp [hx, hnq]
    · simp [hx]

/-- After the replace sequence, each inserted chunk id keys exactly its own
embedding row. -/
theorem insertAll_embeddings_key :
    ∀ (pairs : List (CodeChunk × List ℚ)) (st : StoreState)
      (q0 : CodeChunk × List ℚ), q0 ∈ pairs →
      ((pairs.map (fun q => q.1.id)).Nodup) →
      (insertAll pairs st).embeddings.filter (fun r => r.1 = q0.1.id) =
        [(q0.1.id, q0.2)] := by
  intro pairs
  induction pairs with
  | nil =>
    intro st q0 hmem
    simp at hmem
  | cons q rest ih =>
    intro st q0 hmem hnodup
    rw [List.map_cons, List.nodup_cons] at hnodup
    rcases List.mem_cons.mp hmem with h | h
    · subst h
      rw [insertAll_cons]
      have hnot : ∀ r ∈ rest, ¬ r.1.id = q0.1.id := by
        intro r hr hbad
        exact hnodup.1 (List.mem_map.mpr ⟨r, hr, hbad⟩)
      rw [insertAll_embeddings_other rest _ q0.1.id hnot]
      simp only [VectorStore_insert, upsertChunk, upsertEmbedding]
      rw [List.filter_append, List.filter_filter]
      have h1 : List.filter
          (fun r : String × List ℚ => decide (r.1 = q0.1.id) && decide (¬ r.1 = q0.1.id))
          st.embeddings = [] := by
        rw [List.filter_eq_nil_iff]
        intro r _
        simp
      rw [h1, List.nil_append]
      simp
    · rw [insertAll_cons]
      exact ih _ q0 h hnodup.2

/-- After the replace sequence, the file-predicate rows of the chunk table
are exactly the inserted chunks, in insertion order. -/
theorem insertAll_chunks_filter (p : CodeChunk → Bool) :
    ∀ (pairs : List (CodeChunk × List ℚ)) (st : StoreState) (acc : List CodeChunk),
      st.chunks.filter p = acc →
      (∀ q ∈ pairs, p q.1 = true) →
      ((pairs.map (fun q => q.1.id)).Nodup) →
      (∀ a ∈ acc, ∀ q ∈ pairs, ¬ a.id = q.1.id) →
      (insertAll pairs st).chunks.filter p = acc ++ pairs.map (fun q => q.1) := by
  intro pairs
  induction pairs with
  | nil =>
    intro st acc hacc _ _ _
    simpa [insertAll] using hacc
  | cons q rest ih =>
    intro st acc hacc hall hnodup hdisj
    rw [List.map_cons, List.nodup_cons] at hnodup
    rw [insertAll_cons]
    have hstep : (VectorStore_insert none q.1 q.2 st).2.chunks.filter p = acc ++ [q.1] := by
      simp only [VectorStore_insert, upsertChunk, upsertEmbedding]
      rw [List.filter_append, List.filter_filter]
      have hq : List.filter p [q.1] = [q.1] := by
        simp [hall q (List.mem_cons_self _ _)]
      rw [hq]
      have hcomm : List.filter
          (fun a => p a && decide (¬ a.id = q.1.id)) st.chunks =
          List.filter (fun a => decide (¬ a.id = q.1.id) && p a) st.chunks := by
        refine List.filter_congr ?_
        intro a _
        rw [Bool.and_comm]
      rw [hcomm, ← List.filter_filter, hacc]
      have hself : List.filter (fun a => decide (¬ a.id = q.1.id)) acc = acc := by
        rw [List.filter_eq_self]
        intro a ha
        simpa using hdisj a ha q (List.mem_cons_self _ _)
      rw [hself]
    have hdisj' : ∀ a ∈ acc ++ [q.1], ∀ r ∈ rest, ¬ a.id = r.1.id := by
      intro a ha r hr
      rcases List.mem_append.mp ha with h | h
      · exact hdisj a h r (List.mem_cons_of_mem _ hr)
      · simp only [List.mem_singleton] at h
        subst h
        intro hbad
        exact hnodup.1 (List.mem_map.mpr ⟨r, hr, hbad.symm⟩)
    rw [ih _ (acc ++ [q.1]) hstep (fun r hr => hall r (List.mem_cons_of_mem _ hr))
      hnodup.2 hdisj']
    simp

/-- C6: after `remove_file` for a (collection, path) pair followed by
inserting a new chunk set for that pair, exactly the new set is queryable for
the file: the pair's chunk rows are precisely the new chunks (no stale row,
no duplicate), each new chunk id keys exactly its own embedding row, and the
file list contains the path exactly when the new set is non-empty. -/
theorem replace_file_exact (st : StoreState) (fsId fp : String)
    (pairs : List (CodeChunk × List ℚ))
    (hmatch : ∀ q ∈ pairs, fileMatches fsId fp q.1 = true)
    (hids : (pairs.map (fun q => q.1.id)).Nodup) :
    ((insertAll pairs (remove_file fsId fp st).2).chunks.filter (fileMatches fsId fp) =
        pairs.map (fun q => q.1)) ∧
    (∀ q ∈ pairs, (insertAll pairs (remove_file fsId fp st).2).embeddings.filter
        (fun r => r.1 = q.1.id) = [(q.1.id, q.2)]) ∧
    (fp ∈ get_indexed_files (insertAll pairs (remove_file fsId fp st).2) fsId ↔
      pairs ≠ []) := by
  have hclean : (remove_file fsId fp st).2.chunks.filter (fileMatches fsId fp) = [] := by
    simp only [remove_file]
    rw [List.filter_filter, List.filter_eq_nil_iff]
    intro a _
    by_cases hm : fileMatches fsId fp a = true
    · simp [hm]
    · simp [hm]
  have part1 : (insertAll pairs (remove_file fsId fp st).2).chunks.filter
      (fileMatches fsId fp) = pairs.map (fun q => q.1) := by
    have := insertAll_chunks_filter (fileMatches fsId fp) pairs
      (remove_file fsId fp st).2 [] hclean hmatch hids
      (fun a ha => absurd ha (List.not_mem_nil a))
    simpa using this
  refine ⟨part1, fun q hq => insertAll_embeddings_key pairs _ q hq hids, ?_⟩
  constructor
  · intro hfp
    unfold get_indexed_files at hfp
    rw [List.mem_dedup] at hfp
    rcases List.mem_map.mp hfp with ⟨c, hc, hcp⟩
    rcases List.mem_filter.mp hc with ⟨hcmem, hcfs⟩
    simp only [decide_eq_true_eq] at hcfs
    have hcm : fileMatches fsId fp c = true := by
      simp only [fileMatches, Bool.decide_and, Bool.and_eq_true, decide_eq_true_eq]
      exact ⟨hcfs, hcp⟩
    have hcin : c ∈ (insertAll pairs (remove_file fsId fp st).2).chunks.filter
        (fileMatches fsId fp) := List.mem_filter.mpr ⟨hcmem, hcm⟩
    rw [part1] at hcin
    intro hnil
    rw [hnil] at hcin
    simp at hcin
  · intro hne
    rcases List.exists_cons_of_ne_nil hne with ⟨q, rest, rfl⟩
    have hq1 : q.1 ∈ (insertAll (q :: rest) (remove_file fsId fp st).2).chunks.filter
        (fileMatches fsId fp) := by
      rw [part1]
      exact List.mem_map.mpr ⟨q, List.mem_cons_self _ _, rfl⟩
    rcases List.mem_filter.mp hq1 with ⟨hqmem, hqm⟩
    simp only [fileMatches, Bool.decide_and, Bool.and_eq_true, decide_eq_true_eq] at hqm
    unfold get_indexed_files
    rw [List.mem_dedup]
    refine List.mem_map.mpr ⟨q.1, List.mem_filter.mpr ⟨hqmem, by simp [hqm.1]⟩, hqm.2⟩

/-- The pre-state of the C6 witness: one stale chunk for the replaced file
and one chunk of another file. -/
def stRep : StoreState :=
  { chunks :=
      [{ id := "old"
         filesystem_hex_id := "A"
         file_path := "f.rs"
         start_line := 1
         end_line := 9
         content := "old"
         language := some "rust" },
       { id := "oth"
         filesystem_hex_id := "A"
         file_path := "g.rs"
         start_line := 1
         end_line := 2
         content := "other"
         language := some "rust" }]
    embeddings := [("old", [0]), ("oth", [0])] }

/-- The replacement chunk of the C6 witness. -/
def cNew : CodeChunk :=
  { id := "new"
    filesystem_hex_id := "A"
    file_path := "f.rs"
    start_line := 1
    end_line := 3
    content := "new"
    language := some "rust" }

/-- Witness for C6: replacing `f.rs`'s chunk set in a concrete store leaves
exactly the new chunk queryable for the file. -/
theorem replace_file_exact_witness :
    (insertAll [(cNew, [1])] (remove_file "A" "f.rs" stRep).2).chunks.filter
        (fileMatches "A" "f.rs") = [cNew] :=
  (replace_file_exact stRep "A" "f.rs" [(cNew, [1])] (by decide) (by decide)).1

/-! ## Batched embedding refines plain embedding (C8, C10) -/

/-- The batch loop over `chunksPos` concatenates the per-batch embeddings in
input order and reports, after each batch, the running count of embedded
texts (`min` of batch-multiples and the total). -/
theorem ewpLoop_chunksPos (f : String → List ℚ) (bs : Nat) (h : 0 < bs)
    (total : Nat) :
    ∀ (l : List String) (idx : Nat),
      ewpLoop (some f) total bs idx (chunksPos bs h l) =
        .ok (l.map f,
          (List.range ((l.length + bs - 1) / bs)).map
            (fun i => (min ((idx + i + 1) * bs) total, total))) := by
  intro l
  induction l using chunksPos.induct bs h with
  | case1 =>
    intro idx
    rw [chunksPos]
    have hz : (([] : List String).length + bs - 1) / bs = 0 := by
      rw [List.length_nil]
      exact Nat.div_eq_of_lt (by omega)
    rw [hz]
    rfl
  | case2 x xs ih =>
    intro idx
    have hstep : ewpLoop (some f) total bs idx (chunksPos bs h (x :: xs)) =
        .ok ((((x :: xs).take bs).map f) ++ (((x :: xs).drop bs).map f),
          (min ((idx + 1) * bs) total, total) ::
            (List.range ((((x :: xs).drop bs).length + bs - 1) / bs)).map
              (fun i => (min ((idx + 1 + i + 1) * bs) total, total))) := by
      rw [chunksPos, ewpLoop, ih (idx + 1)]
      rfl
    rw [hstep]
    have hsplit : (((x :: xs).take bs).map f) ++ (((x :: xs).drop bs).map f) =
        (x :: xs).map f := by
      rw [← List.map_append, List.take_append_drop]
    rw [hsplit]
    have hlen : ((x :: xs).drop bs).length = (x :: xs).length - bs := by
      simp
    have hbatches : ((x :: xs).length + bs - 1) / bs =
        (((x :: xs).drop bs).length + bs - 1) / bs + 1 := by
      rw [hlen]
      set n := (x :: xs).length with hn
      have hn1 : 1 ≤ n := by
        rw [hn]
        simp
      by_cases hle : n ≤ bs
      · have h1 : n - bs = 0 := by omega
        have h2 : (0 + bs - 1) / bs = 0 := Nat.div_eq_of_lt (by omega)
        have h3 : n + bs - 1 = (n - 1) + bs := by omega
        have h4 : (n - 1) / bs = 0 := Nat.div_eq_of_lt (by omega)
        rw [h1, h2, h3, Nat.add_div_right _ h, h4]
      · have h1 : n - bs + bs - 1 = n - 1 := by omega
        have h2 : n + bs - 1 = (n - 1) + bs := by omega
        rw [h1, h2, Nat.add_div_right _ h]
    rw [hbatches, List.range_succ_eq_map]
    simp only [List.map_cons, List.map_map]
    refine congrArg Except.ok (congrArg (Prod.mk _) ?_)
    refine congrArg₂ List.cons (by norm_num) ?_
    refine List.map_congr_left ?_
    intro a _
    simp only [Function.comp]
    have harith : idx + 1 + a + 1 = idx + Nat.succ a + 1 := by omega
    rw [harith]

/-- C8: with a positive batch size, `embed_with_progress` returns the very
embedding sequence `embed` returns (batch boundaries invisible), and invokes
the callback once per batch with the running processed count and the total. -/
theorem embed_with_progress_refines_embed (f : String → List ℚ)
    (texts : List String) (batch_size : Nat) (h : 0 < batch_size) :
    Embedder_embed (some f) texts = .ok (texts.map f) ∧
    embed_with_progress (some f) texts batch_size =
      some (.ok (texts.map f,
        (List.range ((texts.length + batch_size - 1) / batch_size)).map
          (fun i => (min ((i + 1) * batch_size) texts.length, texts.length)))) := by
  refine ⟨rfl, ?_⟩
  unfold embed_with_progress
  rw [dif_pos h]
  rw [ewpLoop_chunksPos f batch_size h texts.length texts 0]
  refine congrArg some (congrArg Except.ok (congrArg (Prod.mk _) ?_))
  refine List.map_congr_left ?_
  intro a _
  have harith : 0 + a + 1 = a + 1 := by omega
  rw [harith]

/-- Witness for C8 at three texts and batch size 2: the batched result equals
the plain embedding and the callback fires at (2,3) then (3,3). -/
theorem embed_with_progress_refines_embed_witness :
    Embedder_embed (some (fun s => [(s.length : ℚ)])) ["a", "bb", "c"] =
      .ok (["a", "bb", "c"].map (fun s => [(s.length : ℚ)])) ∧
    embed_with_progress (some (fun s => [(s.length : ℚ)])) ["a", "bb", "c"] 2 =
      some (.ok (["a", "bb", "c"].map (fun s => [(s.length : ℚ)]),
        (List.range ((["a", "bb", "c"].length + 2 - 1) / 2)).map
          (fun i => (min ((i + 1) * 2) ["a", "bb", "c"].length,
            ["a", "bb", "c"].length)))) :=
  embed_with_progress_refines_embed (fun s => [(s.length : ℚ)]) ["a", "bb", "c"] 2
    (by decide)

/-- C10: `texts.chunks(batch_size)` panics for a zero batch size (per the
`slice::chunks` contract), so `embed_with_progress` never returns: a positive
batch size is a necessary precondition. -/
theorem embed_with_progress_zero_batch_panics (model : Option (String → List ℚ))
    (texts : List String) (_h : texts ≠ []) :
    embed_with_progress model texts 0 = none := by
  unfold embed_with_progress
  rw [dif_neg (by omega)]

/-- Witness for C10 at a concrete non-empty text list. -/
theorem embed_with_progress_zero_batch_panics_witness :
    embed_with_progress (some (fun _ => [0])) ["a"] 0 = none :=
  embed_with_progress_zero_batch_panics (some (fun _ => [0])) ["a"] (by decide)
